import Mathlib

/-
Verification of the mombai computation-graph core (`mombai/_graph.py`,
`mombai/_containers.py`) against its design specification.

The Python code is shallowly embedded: Python values that flow through the
graph layer are modelled by the inductive type `Val` (ints, strings, opaque
function handles, lists, plain dicts, and `Cell` objects), graphs by explicit
association lists of node attributes and edge attributes, and fallible
operations by `Except`/`Option`.  The `Cell`/`Hash` layer lives in
`mombai/_cell.py`, which is not part of the sources under review; definitions
taken from that layer are marked `Modelled from the spec:` in their doc
comment and follow the specification text (and the doctests of `_graph.py`).
All other definitions are translated directly from the Python sources.
-/

namespace Mombai

/-- Opaque function handles that can sit in a cell's `function` slot.
`fadd` models `operator.add` (the only concrete callable used by the
specification's scenarios). -/
inductive Fn where
  | fadd : Fn
deriving DecidableEq

/-- The universe of Python values flowing through the graph layer:
integers, strings, callables, lists (also standing for tuples),
plain dicts, and `Cell` objects `vcell node function args kwargs`. -/
inductive Val where
  | vint : Int → Val
  | vstr : String → Val
  | vfn : Fn → Val
  | vlist : List Val → Val
  | vdict : List (String × Val) → Val
  | vcell : Val → Val → List Val → List (String × Val) → Val

namespace Val

/-- Structural (value) equality on `Val`, used to derive decidable equality. -/
def beq : Val → Val → Bool
  | vint a, vint b => a == b
  | vstr a, vstr b => a == b
  | vfn a, vfn b => a == b
  | vlist xs, vlist ys => beqL xs ys
  | vdict xs, vdict ys => beqP xs ys
  | vcell n f a k, vcell n' f' a' k' =>
      beq n n' && beq f f' && beqL a a' && beqP k k'
  | _, _ => false
where
  beqL : List Val → List Val → Bool
    | [], [] => true
    | x :: xs, y :: ys => beq x y && beqL xs ys
    | _, _ => false
  beqP : List (String × Val) → List (String × Val) → Bool
    | [], [] => true
    | (s, x) :: xs, (t, y) :: ys => s == t && beq x y && beqP xs ys
    | _, _ => false

theorem eq_of_beq : ∀ {a b : Val}, beq a b = true → a = b
  | vint _, vint _, h => by simp [beq] at h; simp [h]
  | vstr _, vstr _, h => by simp [beq] at h; simp [h]
  | vfn _, vfn _, h => by simp [beq] at h; simp [h]
  | vlist xs, vlist ys, h => by
      simp only [beq] at h
      exact congrArg vlist (eqL h)
  | vdict xs, vdict ys, h => by
      simp only [beq] at h
      exact congrArg vdict (eqP h)
  | vcell n f a k, vcell n' f' a' k', h => by
      simp only [beq, Bool.and_eq_true] at h
      obtain ⟨⟨⟨h1, h2⟩, h3⟩, h4⟩ := h
      rw [eq_of_beq h1, eq_of_beq h2, eqL h3, eqP h4]
  | vint _, vstr _, h => by simp [beq] at h
  | vint _, vfn _, h => by simp [beq] at h
  | vint _, vlist _, h => by simp [beq] at h
  | vint _, vdict _, h => by simp [beq] at h
  | vint _, vcell _ _ _ _, h => by simp [beq] at h
  | vstr _, vint _, h => by simp [beq] at h
  | vstr _, vfn _, h => by simp [beq] at h
  | vstr _, vlist _, h => by simp [beq] at h
  | vstr _, vdict _, h => by simp [beq] at h
  | vstr _, vcell _ _ _ _, h => by simp [beq] at h
  | vfn _, vint _, h => by simp [beq] at h
  | vfn _, vstr _, h => by simp [beq] at h
  | vfn _, vlist _, h => by simp [beq] at h
  | vfn _, vdict _, h => by simp [beq] at h
  | vfn _, vcell _ _ _ _, h => by simp [beq] at h
  | vlist _, vint _, h => by simp [beq] at h
  | vlist _, vstr _, h => by simp [beq] at h
  | vlist _, vfn _, h => by simp [beq] at h
  | vlist _, vdict _, h => by simp [beq] at h
  | vlist _, vcell _ _ _ _, h => by simp [beq] at h
  | vdict _, vint _, h => by simp [beq] at h
  | vdict _, vstr _, h => by simp [beq] at h
  | vdict _, vfn _, h => by simp [beq] at h
  | vdict _, vlist _, h => by simp [beq] at h
  | vdict _, vcell _ _ _ _, h => by simp [beq] at h
  | vcell _ _ _ _, vint _, h => by simp [beq] at h
  | vcell _ _ _ _, vstr _, h => by simp [beq] at h
  | vcell _ _ _ _, vfn _, h => by simp [beq] at h
  | vcell _ _ _ _, vlist _, h => by simp [beq] at h
  | vcell _ _ _ _, vdict _, h => by simp [beq] at h
where
  eqL : ∀ {xs ys : List Val}, beq.beqL xs ys = true → xs = ys
    | [], [], _ => rfl
    | x :: xs, y :: ys, h => by
        simp only [beq.beqL, Bool.and_eq_true] at h
        rw [eq_of_beq h.1, eqL h.2]
    | [], _ :: _, h => by simp [beq.beqL] at h
    | _ :: _, [], h => by simp [beq.beqL] at h
  eqP : ∀ {xs ys : List (String × Val)}, beq.beqP xs ys = true → xs = ys
    | [], [], _ => rfl
    | (s, x) :: xs, (t, y) :: ys, h => by
        simp only [beq.beqP, Bool.and_eq_true] at h
        obtain ⟨⟨h1, h2⟩, h3⟩ := h
        rw [eq_of_beq h2, eqP h3, show s = t by simpa using h1]
    | [], _ :: _, h => by simp [beq.beqP] at h
    | _ :: _, [], h => by simp [beq.beqP] at h

theorem beq_refl : ∀ (a : Val), beq a a = true
  | vint _ => by simp [beq]
  | vstr _ => by simp [beq]
  | vfn _ => by simp [beq]
  | vlist xs => by simp only [beq]; exact reflL xs
  | vdict xs => by simp only [beq]; exact reflP xs
  | vcell n f a k => by
      simp only [beq, Bool.and_eq_true]
      exact ⟨⟨⟨beq_refl n, beq_refl f⟩, reflL a⟩, reflP k⟩
where
  reflL : ∀ (xs : List Val), beq.beqL xs xs = true
    | [] => rfl
    | x :: xs => by
        simp only [beq.beqL, Bool.and_eq_true]
        exact ⟨beq_refl x, reflL xs⟩
  reflP : ∀ (xs : List (String × Val)), beq.beqP xs xs = true
    | [] => rfl
    | (s, x) :: xs => by
        simp only [beq.beqP, Bool.and_eq_true]
        exact ⟨⟨by simp, beq_refl x⟩, reflP xs⟩

instance instDecEq : DecidableEq Val := fun a b =>
  if h : beq a b = true then isTrue (eq_of_beq h)
  else isFalse (fun he => h (he ▸ beq_refl a))

end Val

open Val

/-- `_is_ref` (`_graph.py` line 26): a string is a reference when it
starts with the character `@`. -/
def isRefStr (s : String) : Bool :=
  match s.data with
  | '@' :: _ => true
  | _ => false

/-- Python's `s[1:]`: drop the first character of a string. -/
def strTail (s : String) : String := ⟨s.data.drop 1⟩

/-- A decimal digit character. -/
def isDigitChar (c : Char) : Bool := '0' ≤ c && c ≤ '9'

/-- `_is_int` (`_graph.py` line 29): the string is a (possibly negative)
decimal integer, i.e. `(s.startswith('-') and s[1:].isdigit()) or s.isdigit()`.
Python's `str.isdigit` is false on the empty string. -/
def isIntStr (s : String) : Bool :=
  match s.data with
  | [] => false
  | '-' :: rest => !rest.isEmpty && rest.all isDigitChar
  | l => l.all isDigitChar

/-- Python's `int(s)` on a string accepted by `isIntStr`. -/
def parseIntStr (s : String) : Int :=
  match s.data with
  | '-' :: rest => -(Int.ofNat (rest.foldl (fun acc c => acc * 10 + (c.toNat - '0'.toNat)) 0))
  | l => Int.ofNat (l.foldl (fun acc c => acc * 10 + (c.toNat - '0'.toNat)) 0)

/-- The string `"@" ++ s`, how the code builds a reference to id `s`. -/
def refOf (s : String) : String := ⟨'@' :: s.data⟩

/-- Modelled from the spec: `Hash` (from the missing `mombai/_cell.py`) is a
deterministic, value-based identity function; a `Cell` hashes by its `node`,
recursively (spec section 4.1).  In the embedding the digest is represented by
the hashed value itself (stripped of cell wrappers), which is deterministic and
collision-free, as the contract requires. -/
def Hash : Val → Val
  | vcell n _ _ _ => Hash n
  | v => v

/-- `XCL._key` (`_graph.py` lines 125-141), node-key part: a reference string
is stripped of its `@` and parsed as an int when numeric, a `Cell` is keyed by
its `node`, everything else goes through `Hash`.  (The edge case of `_key`,
which maps `_key` over the pair, is handled at the call sites for edges.) -/
def xkey : Val → Val
  | vstr s =>
      if isRefStr s then
        let t := strTail s
        if isIntStr t then Hash (vint (parseIntStr t)) else Hash (vstr t)
      else Hash (vstr s)
  | vcell n _ _ _ => xkey n
  | v => Hash v

/-- Evaluation of `operator.add` on resolved arguments: Python `+` on two
ints, two strings or two lists; anything else (wrong arity, keyword
arguments, mixed types) is a `TypeError`, i.e. `none`. -/
def applyFn : Fn → List Val → List (String × Val) → Option Val
  | .fadd, [vint a, vint b], [] => some (vint (a + b))
  | .fadd, [vstr a, vstr b], [] => some (vstr (a ++ b))
  | .fadd, [vlist a, vlist b], [] => some (vlist (a ++ b))
  | _, _, _ => none

/-- Modelled from the spec: argument resolution and cell evaluation
(`Cell.evaluate` of the missing `mombai/_cell.py`, spec section 4.2):
every argument that is itself a `Cell` is resolved by recursively evaluating
it (structure-aware, so cells nested in lists and dict values are resolved
in place), then the function is invoked on the resolved arguments.  A cell
whose function is not callable returns the resolved function value when it
has no arguments (`Cell('a', 1)() == 1`, doctest of `XCL.to_id`) and is a
`TypeError` (`none`) otherwise.  Reference strings are NOT resolved by
evaluation: the doctest of `XCL.to_id` shows `h['c']() == '@a@b'`. -/
def argEval : Val → Option Val
  | vint n => some (vint n)
  | vstr s => some (vstr s)
  | vfn f => some (vfn f)
  | vlist xs => do
      let ys ← go xs
      pure (vlist ys)
  | vdict kvs => do
      let ys ← goP kvs
      pure (vdict ys)
  | vcell _ f a kw => do
      let fv ← argEval f
      let av ← go a
      let kv ← goP kw
      match fv with
      | vfn fn => applyFn fn av kv
      | v => if a.isEmpty && kw.isEmpty then some v else none
where
  go : List Val → Option (List Val)
    | [] => some []
    | x :: xs => do
        let y ← argEval x
        let ys ← go xs
        pure (y :: ys)
  goP : List (String × Val) → Option (List (String × Val))
    | [] => some []
    | (s, x) :: xs => do
        let y ← argEval x
        let ys ← goP xs
        pure ((s, y) :: ys)

/-- Calling a cell, `g['c']()`: evaluate it as a value. -/
def evalCell (c : Val) : Option Val := argEval c

/-- Errors surfaced by graph-level operations: `cycle` models networkx's
`NetworkXUnfeasible` ("graph contains a cycle") raised by
`nx.topological_sort`, `keyError k` models Python's `KeyError(k)` on a node
lookup, and `notACell` models the `AttributeError` raised when a node payload
without `function`/`args`/`kwargs` attributes (e.g. a bare attribute dict) is
used as a cell. -/
inductive Err where
  | cycle : Err
  | keyError : Val → Err
  | notACell : Err
deriving DecidableEq

instance {ε α : Type} [DecidableEq ε] [DecidableEq α] : DecidableEq (Except ε α) := fun x y =>
  match x, y with
  | .ok a, .ok b =>
      if h : a = b then isTrue (by rw [h]) else isFalse (by intro he; cases he; exact h rfl)
  | .error a, .error b =>
      if h : a = b then isTrue (by rw [h]) else isFalse (by intro he; cases he; exact h rfl)
  | .ok _, .error _ => isFalse (by intro he; cases he)
  | .error _, .ok _ => isFalse (by intro he; cases he)

/-- A node or edge attribute dictionary (a Python `dict` of attributes). -/
abbrev Attrs := List (String × Val)

/-- Setting one attribute: update in place when the key exists (Python dicts
keep insertion order), append otherwise. -/
def setAttr (a : Attrs) (s : String) (v : Val) : Attrs :=
  if (a.map Prod.fst).contains s then
    a.map (fun p => if p.1 = s then (p.1, v) else p)
  else a ++ [(s, v)]

/-- `dict.update`: fold `setAttr` over the new bindings (what
`add_node(key, **d)` / `add_edge(u, v, **d)` do to an existing attribute
dict in networkx). -/
def mergeAttrs (a d : Attrs) : Attrs :=
  d.foldl (fun acc p => setAttr acc p.1 p.2) a

/-- The graph state: insertion-ordered association lists of node attributes
and edge attributes, modelling `nx.DiGraph`'s `_node` and adjacency data. -/
structure Graph where
  nodes : List (Val × Attrs)
  edges : List ((Val × Val) × Attrs)
deriving DecidableEq

/-- The empty graph, `XCL()` / `DAG()`. -/
def emptyGraph : Graph := ⟨[], []⟩

/-- The raw stored node keys, in insertion order (`graph.nodes`). -/
def nodeKeys (g : Graph) : List Val := g.nodes.map Prod.fst

/-- Raw attribute lookup (`self.nodes[key]`), `none` = `KeyError`. -/
def lookupNode (g : Graph) (k : Val) : Option Attrs :=
  (g.nodes.find? (fun p => p.1 = k)).map Prod.snd

/-- networkx `add_node(key, **d)`: update the attribute dict of an existing
node, or append a fresh node. -/
def addNode (g : Graph) (k : Val) (d : Attrs) : Graph :=
  if (nodeKeys g).contains k then
    { g with nodes := g.nodes.map (fun p => if p.1 = k then (p.1, mergeAttrs p.2 d) else p) }
  else
    { g with nodes := g.nodes ++ [(k, d)] }

/-- networkx `add_edge(u, v, **d)`: missing endpoints are silently added as
nodes with empty attribute dicts, then the edge's attribute dict is updated
(or the edge appended). -/
def addEdge (g : Graph) (u v : Val) (d : Attrs) : Graph :=
  let g1 := if (nodeKeys g).contains u then g else { g with nodes := g.nodes ++ [(u, [])] }
  let g2 := if (nodeKeys g1).contains v then g1 else { g1 with nodes := g1.nodes ++ [(v, [])] }
  if (g2.edges.map Prod.fst).contains (u, v) then
    { g2 with edges := g2.edges.map (fun p => if p.1 = (u, v) then (p.1, mergeAttrs p.2 d) else p) }
  else
    { g2 with edges := g2.edges ++ [((u, v), d)] }

/-- Whether the edge `(u, v)` is present. -/
def hasEdge (g : Graph) (u v : Val) : Bool :=
  (g.edges.map Prod.fst).contains (u, v)

/-- `DAG._as_dict` / `XCL._as_dict` (`_graph.py` lines 42-47 and 143-148):
a plain mapping is its own attribute dict, anything else is wrapped as
`{value: v}`.  A `Cell` (`vcell`), although a dict subclass in Python, is
explicitly excluded by `XCL._as_dict` and wrapped; the generic `DAG` is only
exercised with plain values and mappings in this development. -/
def asDict : Val → Attrs
  | vdict d => d
  | v => [("value", v)]

/-- `DAG._as_value` (`_graph.py` lines 49-54): a single-entry attribute dict
whose only key is `value` is unwrapped; anything else is returned as the
mapping itself. -/
def asValue : Attrs → Val
  | [(s, v)] => if s = "value" then v else vdict [(s, v)]
  | d => vdict d

/-- `DAG.__setitem__` for a node key (`_graph.py` lines 63-69): `DAG._key` is
the identity, so the value's attribute dict is attached at the key itself. -/
def dagSetItem (g : Graph) (k : Val) (v : Val) : Graph :=
  addNode g k (asDict v)

/-- `DAG.__getitem__` for a node key (`_graph.py` lines 56-61). -/
def dagGetItem (g : Graph) (k : Val) : Option Val :=
  (lookupNode g k).map asValue

/-- Is the value a `Cell`? -/
def isCellV : Val → Bool
  | vcell _ _ _ _ => true
  | _ => false

/-- Is the value a reference string (`_is_ref` applied to a value)? -/
def isRefVal : Val → Bool
  | vstr s => isRefStr s
  | _ => false

/-- `XCL.__setitem__`, node branch (`_graph.py` lines 150-158): a non-`Cell`
value `v` assigned to `key` is first wrapped as `Cell(key, v)` (with the raw,
un-normalized key as its node); the resulting cell is stored as the single
`value` attribute at the normalized key `xkey key`. -/
def xclSetItem (g : Graph) (k : Val) (v : Val) : Graph :=
  let payload := if isCellV v then v else vcell k v [] []
  addNode g (xkey k) (asDict payload)

/-- `XCL.__setitem__`, edge branch (`_graph.py` lines 151-154): the value's
attribute dict is attached at the normalized endpoint pair. -/
def xclSetEdge (g : Graph) (u v : Val) (d : Val) : Graph :=
  addEdge g (xkey u) (xkey v) (asDict d)

/-- `XCL.__getitem__` for a node key: normalize through `_key`, then look up
and unwrap (`none` = `KeyError`). -/
def xclGetItem (g : Graph) (k : Val) : Option Val :=
  (lookupNode g (xkey k)).map asValue

/-- `XCL.__add__` (`_graph.py` lines 160-170): inserting a cell stores it at
its node, then recursively inserts its function, its positional arguments and
its keyword-argument values; arrays insert element-wise; any other value
leaves the graph unchanged. -/
def addCellX (g : Graph) : Val → Graph
  | c@(vcell n f a kw) =>
      let g1 := xclSetItem g n c
      let g2 := addCellX g1 f
      let g3 := goL g2 a
      goP g3 kw
  | vlist xs => goL g xs
  | _ => g
where
  goL : Graph → List Val → Graph
    | g, [] => g
    | g, x :: xs => goL (addCellX g x) xs
  goP : Graph → List (String × Val) → Graph
    | g, [] => g
    | g, (_, x) :: xs => goP (addCellX g x) xs

/-- `copy.deepcopy` on a graph: an equal, independent copy.  In the pure
embedding a copy is the value itself; what matters is that all subsequent
mutation happens on the copy, which the state-threading definitions below
make explicit. -/
def deepcopy (g : Graph) : Graph := g

/-- A printable rendering of a value, standing in for Python's `'%s' % v`
on values that are neither strings nor ints (and, Modelled from the spec,
for the Hash-based `id` of a cell whose node is a mapping). -/
def canonicalStr : Val → String
  | vint i => toString i
  | vstr s => s
  | vfn _ => "operator.add"
  | vlist xs => "[" ++ String.intercalate ", " (goL xs) ++ "]"
  | vdict kvs => "\x7b" ++ String.intercalate ", " (goP kvs) ++ "\x7d"
  | vcell n _ _ _ => "Cell(" ++ canonicalStr n ++ ")"
where
  goL : List Val → List String
    | [] => []
    | x :: xs => canonicalStr x :: goL xs
  goP : List (String × Val) → List String
    | [] => []
    | (s, x) :: xs => (s ++ ": " ++ canonicalStr x) :: goP xs

/-- The id string a cell reference is built from: `v.id if isinstance(v.node,
dict) else v.node`, interpolated by `'@%s'`.  String and int nodes print as
themselves; a mapping node uses its Hash-based id (Modelled from the spec,
`_cell.py` being absent), rendered canonically. -/
def refTarget : Val → String
  | vstr s => s
  | vint i => toString i
  | v => canonicalStr v

/-- `_to_id` (`_graph.py` line 32), i.e. `_per_cell` applied with
`f = lambda v: '@%s' % (v.id if isinstance(v.node, dict) else v.node)`.
Modelled from the spec: `_per_cell` (missing `mombai/_cell.py`) maps `f` over
array values element-wise and applies it to `Cell` values, leaving everything
else unchanged — `f` itself reads `v.node`/`v.id`, so it only ever receives
cells. -/
def toIdVal : Val → Val
  | vcell n _ _ _ => vstr (refOf (refTarget n))
  | vlist xs => vlist (goL xs)
  | v => v
where
  goL : List Val → List Val
    | [] => []
    | x :: xs => toIdVal x :: goL xs

/-- One iteration of the `XCL.to_id` loop (`_graph.py` lines 194-200): fetch
the payload at a node, replace the cell-valued parts of its function, args and
kwargs by `@id` reference strings, and store it back.  A payload that is not a
cell has no `function` attribute to assign (`AttributeError`). -/
def toIdStep (g : Graph) (k : Val) : Except Err Graph :=
  match xclGetItem g k with
  | none => .error (.keyError (xkey k))
  | some (vcell n f a kw) =>
      .ok (xclSetItem g k (vcell n (toIdVal f) (a.map toIdVal)
        (kw.map (fun p => (p.1, toIdVal p.2)))))
  | some _ => .error .notACell

/-- `XCL.to_id` (`_graph.py` lines 172-201): deep-copy the graph, then
rewrite every node's payload into reference form, iterating over the node
keys. -/
def toId (g : Graph) : Except Err Graph :=
  goK (deepcopy g) (nodeKeys g)
where
  goK : Graph → List Val → Except Err Graph
    | g, [] => .ok g
    | g, k :: ks => do
        let g' ← toIdStep g k
        goK g' ks

/-- The cell-branch body of `XCL.add_parents` (`_graph.py` lines 229-238) for
an already-resolved cell `c` and a given parent value: a `Cell` or reference
parent contributes the edge `graph[parent, cell] = {}`; an array parent is
walked element-wise; anything else contributes nothing.  This never fails
(edge insertion is total). -/
def cellParentsP (g : Graph) (c : Val) (pv : Val) : Graph :=
  if isCellV pv || isRefVal pv then xclSetEdge g pv c (vdict [])
  else match pv with
    | vlist ps => goL g ps
    | _ => g
where
  goL : Graph → List Val → Graph
    | g, [] => g
    | g, pe :: ps => goL (cellParentsP g c pe) ps

/-- The `parent is None` default of the cell branch: recurse with the cell's
function, its argument list and its keyword-argument values as parents
(`_graph.py` lines 235-238). -/
def cellParents (g : Graph) (c : Val) (p : Option Val) : Graph :=
  match c with
  | vcell _ f a kw =>
      match p with
      | some pv => cellParentsP g c pv
      | none =>
          let g1 := cellParentsP g c f
          let g2 := cellParentsP g1 c (vlist a)
          cellParentsP g2 c (vlist (kw.map Prod.snd))
  | _ => g

/-- `XCL.add_parents` for an explicit `cell` argument (`_graph.py` lines
217-239): a reference is resolved through the graph first (a missing node is
a `KeyError`, raised after any edges contributed by earlier array elements
were already added in place); an array is walked element-wise; a cell then
contributes its parent edges. -/
def addParentsC (g : Graph) (c : Val) (p : Option Val) : Graph × Option Err :=
  if isRefVal c then
    match xclGetItem g c with
    | none => (g, some (.keyError (xkey c)))
    | some c' => (cellParents g c' p, none)
  else
    match c with
    | vlist xs => goL g xs p
    | _ => (cellParents g c p, none)
where
  goL : Graph → List Val → Option Val → Graph × Option Err
    | g, [], _ => (g, none)
    | g, x :: xs, p =>
        match addParentsC g x p with
        | (g', none) => goL g' xs p
        | (g', some e) => (g', some e)

/-- Fetch `[graph[c] for c in graph.nodes]` (the payload list built eagerly
by `add_parents` when `cell is None`); a stored key that does not survive
re-normalization is a `KeyError` before any mutation. -/
def collectPayloads (g : Graph) : List Val → Except Err (List Val)
  | [] => .ok []
  | k :: ks =>
      match xclGetItem g k with
      | none => .error (.keyError (xkey k))
      | some c => (c :: ·) <$> collectPayloads g ks

/-- `graph.add_parents()` with both arguments defaulted: expand `cell` to the
list of all node payloads, then walk it.  Mutation happens in place on the
receiver, so the returned graph is the receiver's final state even when an
error is reported. -/
def addParentsNone (g : Graph) : Graph × Option Err :=
  match collectPayloads g (nodeKeys g) with
  | .error e => (g, some e)
  | .ok cs => goC g cs
where
  goC : Graph → List Val → Graph × Option Err
    | g, [] => (g, none)
    | g, c :: cs =>
        match addParentsC g c none with
        | (g', none) => goC g' cs
        | (g', some e) => (g', some e)

/-- No remaining (unprocessed) node points into `k`: Kahn's criterion for
`k` being emittable next. -/
def noIncoming (edges : List ((Val × Val) × Attrs)) (rem : List Val) (k : Val) : Bool :=
  edges.all (fun e => !(decide (e.1.2 = k) && decide (e.1.1 ∈ rem)))

/-- Kahn's algorithm on the node list: repeatedly emit every remaining node
with no incoming edge from a remaining node; if none is emittable while nodes
remain, the graph contains a cycle (`nx.topological_sort` raising
`NetworkXUnfeasible`).  The fuel argument only bounds the recursion: every
round removes at least one node, so starting the fuel at the node count (as
`topoSort` does) never exhausts it while nodes remain. -/
def kahnAux (edges : List ((Val × Val) × Attrs)) :
    Nat → List Val → List Val → Except Err (List Val)
  | 0, rem, acc => if rem.isEmpty then .ok acc else .error .cycle
  | fuel + 1, rem, acc =>
      let ready := rem.filter (noIncoming edges rem)
      if ready.isEmpty then
        if rem.isEmpty then .ok acc else .error .cycle
      else
        kahnAux edges fuel (rem.filter (fun k => !ready.contains k)) (acc ++ ready)

/-- `nx.topological_sort(self)` as consumed by `from_id`/`to_table`: a
topological order of all nodes, or a cycle error. -/
def topoSort (g : Graph) : Except Err (List Val) :=
  kahnAux g.edges (nodeKeys g).length (nodeKeys g) []

/-- `_from_id` (`_graph.py` lines 114-121): arrays resolve element-wise; a
reference string is looked up in the graph (stripping `@`, parsing a numeric
id as an int); anything else is returned unchanged. -/
def fromIdVal (g : Graph) : Val → Except Err Val
  | vlist xs => vlist <$> goL xs
  | vstr s =>
      if isRefStr s then
        let t := strTail s
        let k : Val := if isIntStr t then vint (parseIntStr t) else vstr t
        match xclGetItem g k with
        | none => .error (.keyError (xkey k))
        | some v => .ok v
      else .ok (vstr s)
  | v => .ok v
where
  goL : List Val → Except Err (List Val)
    | [] => .ok []
    | x :: xs => do
        let y ← fromIdVal g x
        let ys ← goL xs
        .ok (y :: ys)

/-- One iteration of the `XCL.from_id` loop (`_graph.py` lines 209-214):
fetch the payload at a node, resolve the references in its function, args and
kwargs against the working graph, and store it back.  A payload that is not a
cell has no `function` attribute (`AttributeError`). -/
def processNode (g : Graph) (k : Val) : Except Err Graph :=
  match xclGetItem g k with
  | none => .error (.keyError (xkey k))
  | some (vcell n f a kw) => do
      let f' ← fromIdVal g f
      let a' ← goA a
      let kw' ← goK kw
      .ok (xclSetItem g k (vcell n f' a' kw'))
  | some _ => .error .notACell
where
  goA : List Val → Except Err (List Val)
    | [] => .ok []
    | x :: xs => do
        let y ← fromIdVal g x
        let ys ← goA xs
        .ok (y :: ys)
  goK : List (String × Val) → Except Err (List (String × Val))
    | [] => .ok []
    | (s, x) :: xs => do
        let y ← fromIdVal g x
        let ys ← goK xs
        .ok ((s, y) :: ys)

/-- The `from_id` node loop over a fixed topological order. -/
def fromIdLoop : Graph → List Val → Except Err Graph
  | g, [] => .ok g
  | g, k :: ks => do
      let g' ← processNode g k
      fromIdLoop g' ks

/-- `XCL.from_id` (`_graph.py` lines 203-215): deep-copy the graph, then
rewrite every node in a topological order of the receiver, resolving
reference strings into the actual payloads of the working copy. -/
def fromId (g : Graph) : Except Err Graph := do
  let ks ← topoSort g
  fromIdLoop (deepcopy g) ks

/-- `XCL.from_id` with the receiver's final state made explicit: all mutation
targets the deep copy (line 208), so the receiver is returned unchanged next
to the outcome. -/
def fromIdRun (g : Graph) : Graph × Except Err Graph :=
  (g, fromId g)

/-- JSON object keys are strings: jsonpickle stringifies an int key the way
`json` does. -/
def jsonKeyStr : Val → String
  | vstr s => s
  | vint i => toString i
  | v => canonicalStr v

/-- Build `{k : i[k] for k in i._node}` with stringified keys, as
`jp.encode` serializes it. -/
def collectJson (g : Graph) : List Val → Except Err (List (String × Val))
  | [] => .ok []
  | k :: ks =>
      match xclGetItem g k with
      | none => .error (.keyError (xkey k))
      | some c => ((jsonKeyStr k, c) :: ·) <$> collectJson g ks

/-- `XCL.to_json` (`_graph.py` lines 264-270): de-reference a deep copy via
`to_id`, then encode the node payload mapping (edges are dropped).  The
jsonpickle encode/decode pair is modelled as the identity on payload values,
with object keys stringified. -/
def toJson (g : Graph) : Except Err (List (String × Val)) := do
  let i ← toId g
  collectJson i (nodeKeys i)

/-- `XCL.to_json` with the receiver's final state made explicit: `to_id`
operates on a deep copy, so the receiver is returned unchanged. -/
def toJsonRun (g : Graph) : Graph × Except Err (List (String × Val)) :=
  (g, toJson g)

/-- `XCL.from_json` (`_graph.py` lines 272-285), node-insertion stage:
re-key numeric string keys as ints and insert every node payload into a
fresh graph. -/
def fromJsonNodes (j : List (String × Val)) : Graph :=
  let minimal := j.map (fun p =>
    ((if isIntStr p.1 then vint (parseIntStr p.1) else vstr p.1), p.2))
  minimal.foldl (fun g kv => xclSetItem g kv.1 kv.2) emptyGraph

/-- `XCL.from_json` (`_graph.py` lines 272-285): insert the re-keyed nodes,
rebuild the edges with `add_parents()`, and resolve references with
`from_id()`. -/
def fromJson (j : List (String × Val)) : Except Err Graph :=
  match addParentsNone (fromJsonNodes j) with
  | (_, some e) => .error e
  | (g1, none) => fromId g1

/-- Modelled from the spec: `Cell.metadata()` (missing `mombai/_cell.py`,
spec section 4.2) returns a mapping of identity-relevant, serializable facts
about the cell — its node, function reference and (de-referenced) argument
values. -/
def cellMetadata : Val → Except Err Val
  | vcell n f a kw => .ok (vdict [("node", n), ("function", f), ("args", vlist a), ("kwargs", vdict kw)])
  | _ => .error .notACell

/-- The `{k : i[k].metadata() for k in i._node}` comprehension. -/
def collectMeta (g : Graph) : List Val → Except Err (List (Val × Val))
  | [] => .ok []
  | k :: ks =>
      match xclGetItem g k with
      | none => .error (.keyError (xkey k))
      | some c => do
          let m ← cellMetadata c
          ((k, m) :: ·) <$> collectMeta g ks

/-- `XCL.metadata` (`_graph.py` lines 256-262): de-reference a deep copy via
`to_id`, then collect each node's own metadata.  No topological sort is
involved. -/
def metadata (g : Graph) : Except Err (List (Val × Val)) := do
  let i ← toId g
  collectMeta i (nodeKeys i)

/-- One row of `XCL.to_table`: node id, function, args, kwargs, node. -/
structure TableRow where
  nodeId : Val
  function : Val
  args : List Val
  kwargs : List (String × Val)
  node : Val
deriving DecidableEq

/-- Read one `to_table` row off a node's payload cell. -/
def tableRow (g : Graph) (k : Val) : Except Err TableRow :=
  match xclGetItem g k with
  | none => .error (.keyError (xkey k))
  | some (vcell n f a kw) => .ok ⟨k, f, a, kw, n⟩
  | some _ => .error .notACell

/-- `XCL.to_table` (`_graph.py` lines 241-248): list the nodes in topological
order and read each payload's function, args, kwargs and node (the `Dictable`
row container of the missing `mombai/_dictable.py` is modelled as the list of
rows; the topological sort and the per-node attribute access are the graph
code under review). -/
def toTable (g : Graph) : Except Err (List TableRow) := do
  let ks ← topoSort g
  goR ks
where
  goR : List Val → Except Err (List TableRow)
    | [] => .ok []
    | k :: ks => do
        let r ← tableRow g k
        (r :: ·) <$> goR ks

/-
The deep-equality predicate `eq` of `mombai/_containers.py` (lines 50-93),
embedded on the fragment of Python values its dict branch exercises: ints,
strings, lists (also standing for the object ndarrays `np.array(..,
dtype='object')` builds from them) and dicts with string keys.  Floats (the
NaN branch) and pandas objects are outside the fragment.
-/

/-- Python values compared by `eq`. -/
inductive PV where
  | pint : Int → PV
  | pstr : String → PV
  | plist : List PV → PV
  | pdict : List (String × PV) → PV

namespace PV

/-- Structural equality on `PV`; stands in for the object-identity test
`x is y`, which it matches exactly whenever the two operands are the same
object (identical objects are structurally equal). -/
def pvBeq : PV → PV → Bool
  | pint a, pint b => a == b
  | pstr a, pstr b => a == b
  | plist xs, plist ys => goL xs ys
  | pdict xs, pdict ys => goP xs ys
  | _, _ => false
where
  goL : List PV → List PV → Bool
    | [], [] => true
    | x :: xs, y :: ys => pvBeq x y && goL xs ys
    | _, _ => false
  goP : List (String × PV) → List (String × PV) → Bool
    | [], [] => true
    | (s, x) :: xs, (t, y) :: ys => s == t && pvBeq x y && goP xs ys
    | _, _ => false

theorem pvBeq_refl : ∀ (a : PV), pvBeq a a = true
  | pint _ => by simp [pvBeq]
  | pstr _ => by simp [pvBeq]
  | plist xs => by simp only [pvBeq]; exact reflL xs
  | pdict xs => by simp only [pvBeq]; exact reflP xs
where
  reflL : ∀ (xs : List PV), pvBeq.goL xs xs = true
    | [] => rfl
    | x :: xs => by
        simp only [pvBeq.goL, Bool.and_eq_true]
        exact ⟨pvBeq_refl x, reflL xs⟩
  reflP : ∀ (xs : List (String × PV)), pvBeq.goP xs xs = true
    | [] => rfl
    | (s, x) :: xs => by
        simp only [pvBeq.goP, Bool.and_eq_true]
        exact ⟨⟨by simp, pvBeq_refl x⟩, reflP xs⟩

end PV

open PV

/-- Insert an item into a key-sorted association list (keys of a Python dict
are distinct, so `sorted(x.items())` orders by key alone). -/
def insertByKey (p : String × PV) : List (String × PV) → List (String × PV)
  | [] => [p]
  | q :: qs => if p.1 ≤ q.1 then p :: q :: qs else q :: insertByKey p qs

/-- `sorted(x.items())` modelled as insertion sort by key. -/
def sortByKey : List (String × PV) → List (String × PV)
  | [] => []
  | p :: ps => insertByKey p (sortByKey ps)

theorem sizeOf_insertByKey (p : String × PV) :
    ∀ (l : List (String × PV)), sizeOf (insertByKey p l) = 1 + sizeOf p + sizeOf l
  | [] => by simp [insertByKey]
  | q :: qs => by
      simp only [insertByKey]
      by_cases h : p.1 ≤ q.1
      · simp [h]
      · simp [h, sizeOf_insertByKey p qs]
        omega

theorem sizeOf_sortByKey : ∀ (l : List (String × PV)), sizeOf (sortByKey l) = sizeOf l
  | [] => rfl
  | p :: ps => by
      simp only [sortByKey, sizeOf_insertByKey, sizeOf_sortByKey ps]
      simp

theorem sizeOf_list_pos {A : Type} [SizeOf A] (l : List A) : 0 < sizeOf l := by
  cases l <;> simp_arith

/-- `eq` on two tuples of strings (`eq(xkey, ykey)` in the dict branch):
same type, same length, elementwise string equality. -/
def eqStrTuple (ks ls : List String) : Option Bool :=
  if ks.length = ls.length then some ((ks.zip ls).all (fun p => p.1 == p.2))
  else some false

mutual

/-- `eq(x, y)` (`_containers.py` lines 50-93).  The leading `x is y`
object-identity fast path is modelled by structural equality (exact whenever
the call compares an object with itself, which is how every recursive
comparison inside the dict branch arises). -/
def eqP (x y : PV) : Option Bool :=
  if pvBeq x y then some true else eqCall x y
termination_by 2 * sizeOf x + 1
decreasing_by
  simp_wf

/-- The body of `eq` past the identity fast path, i.e. `eq` as invoked on two
distinct objects.  `none` models an uncaught Python exception.  The dict
branch (lines 82-88) derives BOTH compared key/value sequences from
`sorted(x.items())` — line 85 reads `zip(*sorted(x.items()))` — so the key
tuples and the value arrays it compares are self-comparisons; on an empty
dict, `zip(*[])` unpacks into a `ValueError`. -/
def eqCall : PV → PV → Option Bool
  | plist xs, plist ys =>
      if xs.length = ys.length then eqElems xs ys else some false
  | plist _, _ => some false
  | pdict xs, pdict ys =>
      if xs.length = ys.length then
        match h : sortByKey xs with
        | [] => none
        | q :: qs => do
            let kb ← eqStrTuple ((q :: qs).map Prod.fst) ((q :: qs).map Prod.fst)
            let vb ← eqVals (q :: qs)
            some (kb && vb)
      else some false
  | pdict _, _ => some false
  | pint a, pint b => some (a == b)
  | pint _, _ => some false
  | pstr a, pstr b => some (a == b)
  | pstr _, _ => some false
termination_by x _ => 2 * sizeOf x
decreasing_by
  · simp_wf
  · simp_wf
    have h2 : sizeOf (q :: qs) = sizeOf xs := by
      rw [← h, sizeOf_sortByKey]
    simp at h2
    omega

/-- `np.all(_veq(x, y))` on two equal-length sequences: elementwise `eq`,
any exception propagating. -/
def eqElems : List PV → List PV → Option Bool
  | [], [] => some true
  | a :: as, b :: bs => do
      let r ← eqP a b
      let rs ← eqElems as bs
      some (r && rs)
  | _, _ => some false
termination_by xs _ => 2 * sizeOf xs
decreasing_by
  · simp_wf
    omega
  · simp_wf

/-- The value-array comparison of the dict branch: both arrays are built from
`x`'s own (sorted) items, so each element is compared with itself. -/
def eqVals : List (String × PV) → Option Bool
  | [] => some true
  | (_, v) :: rest => do
      let r ← eqP v v
      let rs ← eqVals rest
      some (r && rs)
termination_by l => 2 * sizeOf l
decreasing_by
  all_goals simp_wf
  all_goals omega

end

end Mombai

namespace Mombai
open Val

/-
Helper lemmas about node lookup and insertion.
-/

theorem lookupNode_eq_none_iff (g : Graph) (k : Val) :
    lookupNode g k = none ↔ k ∉ nodeKeys g := by
  unfold lookupNode nodeKeys
  rw [Option.map_eq_none', List.find?_eq_none]
  constructor
  · intro h hk
    obtain ⟨p, hp, he⟩ := List.mem_map.mp hk
    exact absurd (by simpa using he) (by simpa using h p hp)
  · intro h p hp
    simp only [decide_eq_true_eq]
    intro he
    exact h (List.mem_map.mpr ⟨p, hp, he⟩)

theorem find?_append_of_none {α : Type} (p : α → Bool) (l1 l2 : List α)
    (h : l1.find? p = none) : (l1 ++ l2).find? p = l2.find? p := by
  induction l1 with
  | nil => simp
  | cons a l ih =>
      cases hp : p a with
      | true => simp [List.find?, hp] at h
      | false =>
          simp only [List.cons_append, List.find?, hp] at h ⊢
          exact ih h

theorem lookupNode_addNode_fresh (g : Graph) (k : Val) (d : Attrs)
    (h : k ∉ nodeKeys g) : lookupNode (addNode g k d) k = some d := by
  have hc : (nodeKeys g).contains k = false := by
    simpa using h
  simp only [addNode, hc, Bool.false_eq_true, if_false]
  unfold lookupNode
  simp only
  rw [find?_append_of_none]
  · simp
  · rw [List.find?_eq_none]
    intro p hp
    simp only [decide_eq_true_eq]
    intro he
    exact h (List.mem_map.mpr ⟨p, hp, he⟩)

/-
Example cells and graphs used by the concrete scenarios.
-/

/-- `Cell('a', 1)`. -/
def exA : Val := vcell (vstr "a") (vint 1) [] []

/-- `Cell('b', 2)`. -/
def exB : Val := vcell (vstr "b") (vint 2) [] []

/-- `Cell('c', operator.add, a_cell, b_cell)`. -/
def exC : Val := vcell (vstr "c") (vfn .fadd) [exA, exB] []

/-- `g = XCL() + c`. -/
def exG5 : Graph := addCellX emptyGraph exC

/-- `g.add_parents()`. -/
def exG5e : Graph := (addParentsNone exG5).1

/-- C5: `g = XCL() + c` contains nodes for `c`, `a` and `b` (the whole
dependency subtree in one call), `add_parents()` succeeds and yields the
edges `(a, c)` and `(b, c)`, and `g['c']()` evaluates to `3`. -/
theorem c5_concrete_scenario :
    nodeKeys exG5 = [vstr "c", vstr "a", vstr "b"] ∧
    (addParentsNone exG5).2 = none ∧
    exG5e.edges.map Prod.fst = [(vstr "a", vstr "c"), (vstr "b", vstr "c")] ∧
    (xclGetItem exG5e (vstr "c")).map evalCell = some (some (vint 3)) := by
  decide

end Mombai

namespace Mombai
open Val

/-
C8: DAG payload normalization.
-/

/-- Is the value a plain mapping (a non-`Cell` dict)? -/
def isMappingV : Val → Bool
  | vdict _ => true
  | _ => false

/-- C8 counterexample graph: `g['k'] = {'a': 1}` followed by `g['k'] = 5` on
the generic DAG. -/
def exD8 : Graph :=
  dagSetItem (dagSetItem emptyGraph (vstr "k") (vdict [("a", vint 1)])) (vstr "k") (vint 5)

/-- C8 fails as stated: when the key is already a node carrying other
attributes, networkx's `add_node` merges attribute dicts, so `g[k] = v`
followed by `g[k]` returns the merged mapping, not `v`. -/
theorem c8_counterexample :
    dagGetItem exD8 (vstr "k") = some (vdict [("a", vint 1), ("value", vint 5)]) ∧
    dagGetItem exD8 (vstr "k") ≠ some (vint 5) := by
  decide

/-- C8 amended: on a key that is not yet a node, a bare non-mapping value is
stored as `{value: v}` and read back unwrapped as `v`, and a mapping payload
that is not of the single-key `{value: x}` shape is read back as-is. -/
theorem c8_payload_normalization (g : Graph) (k v : Val) (h : k ∉ nodeKeys g) :
    (isMappingV v = false → dagGetItem (dagSetItem g k v) k = some v) ∧
    (∀ d : Attrs, v = vdict d → (∀ x, d ≠ [("value", x)]) →
      dagGetItem (dagSetItem g k v) k = some (vdict d)) := by
  constructor
  · intro hv
    have hd : asDict v = [("value", v)] := by
      cases v <;> simp [asDict] <;> simp [isMappingV] at hv
    unfold dagSetItem dagGetItem
    rw [lookupNode_addNode_fresh g k (asDict v) h, hd]
    simp [asValue]
  · intro d hv hd
    subst hv
    unfold dagSetItem dagGetItem
    rw [lookupNode_addNode_fresh g k (asDict (vdict d)) h]
    have : asDict (vdict d) = d := by simp [asDict]
    rw [this]
    match d, hd with
    | [], _ => simp [asValue]
    | [(s, x)], hd =>
        have hs : ¬ s = "value" := by
          intro he
          exact hd x (by rw [he])
        simp [asValue, hs]
    | (p :: q :: rest), _ => simp [asValue]

theorem c8_witness :
    (vstr "k") ∉ nodeKeys emptyGraph ∧
    dagGetItem (dagSetItem emptyGraph (vstr "k") (vint 5)) (vstr "k") = some (vint 5) :=
  ⟨by decide, (c8_payload_normalization emptyGraph (vstr "k") (vint 5) (by decide)).1 (by decide)⟩

end Mombai

namespace Mombai
open Val

/-
C9: the dict branch of `eq` compares `x` with itself.
-/

theorem eqP_self (v : PV) : eqP v v = some true := by
  rw [eqP]
  simp [PV.pvBeq_refl]

theorem eqVals_all : ∀ (l : List (String × PV)), eqVals l = some true
  | [] => by rw [eqVals]
  | (s, v) :: rest => by
      rw [eqVals]
      rw [eqP_self, eqVals_all rest]
      rfl

theorem zip_self_all_beq : ∀ (ks : List String), (ks.zip ks).all (fun p => p.1 == p.2) = true
  | [] => rfl
  | k :: ks => by
      simp only [List.zip_cons_cons, List.all_cons, Bool.and_eq_true]
      exact ⟨by simp, zip_self_all_beq ks⟩

theorem eqStrTuple_self (ks : List String) : eqStrTuple ks ks = some true := by
  simp [eqStrTuple, zip_self_all_beq]

theorem insertByKey_ne_nil (p : String × PV) (l : List (String × PV)) :
    insertByKey p l ≠ [] := by
  cases l with
  | nil => simp [insertByKey]
  | cons q qs =>
      simp only [insertByKey]
      by_cases h : p.1 ≤ q.1 <;> simp [h]

/-- C9 counterexample: on two distinct empty dicts the dict branch's
`xkey, xval = zip(*sorted(x.items()))` unpacking raises `ValueError`, so
`eq({}, {})` does not return `True`. -/
theorem c9_counterexample : eqCall (PV.pdict []) (PV.pdict []) = none := by
  rw [eqCall]
  simp [sortByKey]

/-- C9 amended: for two dicts of the same concrete type with the same nonzero
number of keys, `eq` returns `True` whatever the keys and values of `y` are,
because line 85 derives both compared key/value sequences from `x`'s items. -/
theorem c9_dict_eq_ignores_values (xs ys : List (String × PV))
    (hne : xs ≠ []) (hlen : xs.length = ys.length) :
    eqCall (PV.pdict xs) (PV.pdict ys) = some true := by
  rw [eqCall]
  rw [if_pos hlen]
  have hs : sortByKey xs ≠ [] := by
    cases xs with
    | nil => exact absurd rfl hne
    | cons p ps => exact insertByKey_ne_nil p (sortByKey ps)
  match h : sortByKey xs, hs with
  | q :: qs, _ =>
      simp only
      rw [eqStrTuple_self, eqVals_all]
      rfl

theorem c9_witness :
    ([("a", PV.pint 1)] : List (String × PV)) ≠ [] ∧
    eqCall (PV.pdict [("a", PV.pint 1)]) (PV.pdict [("a", PV.pint 2)]) = some true :=
  ⟨by simp, c9_dict_eq_ignores_values [("a", PV.pint 1)] [("a", PV.pint 2)]
    (by simp) (by rfl)⟩

end Mombai

namespace Mombai
open Val

/-
C3: cycle rejection.
-/

/-- A witness that the dependency edge relation of `g` has a cycle: a
nonempty set of nodes each of which has an incoming edge from the set (any
cyclic chain yields such a set, and conversely). -/
def cycleSet (g : Graph) (cy : List Val) : Bool :=
  !cy.isEmpty &&
    cy.all (fun v => decide (v ∈ nodeKeys g) && cy.any (fun u => hasEdge g u v))

theorem kahnAux_cycle (E : List ((Val × Val) × Attrs)) (cy : List Val)
    (hne : cy ≠ [])
    (hclosed : ∀ v ∈ cy, ∃ u ∈ cy, ((u, v) ∈ E.map Prod.fst)) :
    ∀ (fuel : Nat) (rem acc : List Val), (∀ v ∈ cy, v ∈ rem) →
      kahnAux E fuel rem acc = .error .cycle := by
  intro fuel
  induction fuel with
  | zero =>
      intro rem acc hsub
      have hrem : ¬ rem.isEmpty := by
        obtain ⟨v, hv⟩ := List.exists_mem_of_ne_nil cy hne
        have := hsub v hv
        cases rem with
        | nil => cases this
        | cons _ _ => simp
      simp [kahnAux, hrem]
  | succ n ih =>
      intro rem acc hsub
      have hrem : ¬ rem.isEmpty := by
        obtain ⟨v, hv⟩ := List.exists_mem_of_ne_nil cy hne
        have := hsub v hv
        cases rem with
        | nil => cases this
        | cons _ _ => simp
      have hnotready : ∀ v ∈ cy, noIncoming E rem v = false := by
        intro v hv
        obtain ⟨u, hu, he⟩ := hclosed v hv
        unfold noIncoming
        rw [List.all_eq_false]
        obtain ⟨e, hemem, heq⟩ := List.mem_map.mp he
        refine ⟨e, hemem, ?_⟩
        have h1 : e.1.2 = v := by rw [heq]
        have h2 : e.1.1 ∈ rem := by rw [heq]; exact hsub u hu
        simp [h1, h2]
      rw [kahnAux]
      by_cases hready : (rem.filter (noIncoming E rem)).isEmpty
      · simp [hready, hrem]
      · simp only [hready, if_false]
        apply ih
        intro v hv
        rw [List.mem_filter]
        refine ⟨hsub v hv, ?_⟩
        simp only [List.elem_eq_mem, Bool.not_eq_true']
        rw [decide_eq_false_iff_not]
        intro hc
        have := (List.mem_filter.mp hc).2
        rw [hnotready v hv] at this
        cases this

theorem topoSort_cycle (g : Graph) (cy : List Val) (h : cycleSet g cy = true) :
    topoSort g = .error .cycle := by
  unfold cycleSet at h
  simp only [Bool.and_eq_true, Bool.not_eq_true', List.all_eq_true] at h
  obtain ⟨hne, hall⟩ := h
  have hne' : cy ≠ [] := by
    cases cy with
    | nil => simp at hne
    | cons _ _ => simp
  unfold topoSort
  apply kahnAux_cycle g.edges cy hne'
  · intro v hv
    have := hall v hv
    simp only [Bool.and_eq_true, decide_eq_true_eq, List.any_eq_true] at this
    obtain ⟨_, u, hu, hedge⟩ := this
    refine ⟨u, hu, ?_⟩
    unfold hasEdge at hedge
    rw [List.contains_eq_any_beq, List.any_eq_true] at hedge
    obtain ⟨e, he, hbeq⟩ := hedge
    rw [List.mem_map] at he
    obtain ⟨p, hp, hpe⟩ := he
    have : (u, v) = e := eq_of_beq hbeq
    rw [List.mem_map]
    exact ⟨p, hp, by rw [hpe, ← this]⟩
  · intro v hv
    have := hall v hv
    simp only [Bool.and_eq_true, decide_eq_true_eq] at this
    exact this.1

/-- C3 amended: a graph whose dependency edge relation has a cycle makes the
topological-order-dependent operations `from_id` and `to_table` fail with the
cycle error; `metadata` does not topologically sort and is not covered (see
the counterexample). -/
theorem c3_cycle_rejection (g : Graph) (cy : List Val) (h : cycleSet g cy = true) :
    fromId g = .error .cycle ∧ toTable g = .error .cycle := by
  have ht := topoSort_cycle g cy h
  constructor
  · unfold fromId
    rw [ht]
    rfl
  · unfold toTable
    rw [ht]
    rfl

/-- `Cell('x', '@y')` — in reference form, `x` depends on `y`. -/
def exX : Val := vcell (vstr "x") (vstr "@y") [] []

/-- `Cell('y', '@x')` — and `y` depends on `x`: a cycle. -/
def exY : Val := vcell (vstr "y") (vstr "@x") [] []

/-- The cyclic graph with edges `(y, x)` and `(x, y)` built by
`add_parents`. -/
def exGcyc : Graph := (addParentsNone (addCellX (addCellX emptyGraph exX) exY)).1

/-- C3 counterexample: on the cyclic graph, `from_id` and `to_table` do fail
with the cycle error, but `metadata` succeeds and returns per-node metadata —
it never topologically sorts, contradicting the claim that all three
operations fail with CycleError. -/
theorem c3_counterexample :
    fromId exGcyc = .error .cycle ∧
    toTable exGcyc = .error .cycle ∧
    metadata exGcyc = .ok
      [(vstr "x", vdict [("node", vstr "x"), ("function", vstr "@y"),
          ("args", vlist []), ("kwargs", vdict [])]),
       (vstr "y", vdict [("node", vstr "y"), ("function", vstr "@x"),
          ("args", vlist []), ("kwargs", vdict [])])] := by
  refine ⟨?_, ?_, ?_⟩ <;> decide

theorem c3_witness :
    cycleSet exGcyc [vstr "x", vstr "y"] = true ∧
    fromId exGcyc = .error .cycle ∧ toTable exGcyc = .error .cycle :=
  ⟨by decide, c3_cycle_rejection exGcyc [vstr "x", vstr "y"] (by decide)⟩

/-
C4: all-or-nothing behavior of from_id / to_json / add_parents.
-/

/-- `Cell('c', operator.add, a, a)` over `Cell('a', 1)`. -/
def exCP : Val :=
  vcell (vstr "c") (vfn .fadd) [vcell (vstr "a") (vint 1) [] [], vcell (vstr "a") (vint 1) [] []] []

/-- A graph with nodes `c` and `a` and no edges yet. -/
def exGP : Graph := addCellX emptyGraph exCP

/-- C4 counterexample: `add_parents` mutates the receiver in place, so a call
that fails half-way (here: the second element of the cell array is a
reference to a missing node) leaves the edges added for the first element
behind — the receiver is observably mutated by a failed call. -/
theorem c4_counterexample :
    (addParentsC exGP (vlist [exCP, vstr "@zz"]) none).2 = some (.keyError (vstr "zz")) ∧
    (addParentsC exGP (vlist [exCP, vstr "@zz"]) none).1 ≠ exGP ∧
    exGP.edges = [] ∧
    ((addParentsC exGP (vlist [exCP, vstr "@zz"]) none).1).edges.map Prod.fst =
      [(vstr "a", vstr "c")] := by
  refine ⟨?_, ?_, ?_, ?_⟩ <;> decide

/-- C4 amended: `from_id` and `to_json` are all-or-nothing — they deep-copy
the receiver (lines 208 and 268 via `to_id`'s line 194) and mutate only the
copy, so the receiver's nodes, payloads and edges are unchanged whether they
fail or not; `add_parents`, by contrast, mutates in place (see the
counterexample). -/
theorem c4_from_id_to_json_receiver_unchanged (g : Graph) :
    (fromIdRun g).1 = g ∧ (toJsonRun g).1 = g :=
  ⟨rfl, rfl⟩

end Mombai

namespace Mombai
open Val

/-
C10: every payload written by a node-writing XCL operation is a Cell.
-/

/-- Is the value a function handle? -/
def isFnV : Val → Bool
  | vfn _ => true
  | _ => false

/-- The value contains no `Cell` anywhere. -/
def isCellFree : Val → Bool
  | vint _ => true
  | vstr _ => true
  | vfn _ => true
  | vlist xs => goL xs
  | vdict kvs => goP kvs
  | vcell _ _ _ _ => false
where
  goL : List Val → Bool
    | [] => true
    | x :: xs => isCellFree x && goL xs
  goP : List (String × Val) → Bool
    | [] => true
    | (_, x) :: xs => isCellFree x && goP xs

/-- Every node's attribute dict is exactly `{value: cell}`. -/
def cellNodes (g : Graph) : Bool :=
  g.nodes.all (fun p =>
    match p.2 with
    | [(s, c)] => s == "value" && isCellV c
    | _ => false)

theorem argEval_cellFree : ∀ (v : Val), isCellFree v = true → argEval v = some v
  | vint _, _ => rfl
  | vstr _, _ => rfl
  | vfn _, _ => rfl
  | vlist xs, h => by
      simp only [isCellFree] at h
      simp only [argEval]
      rw [goL xs h]
      rfl
  | vdict kvs, h => by
      simp only [isCellFree] at h
      simp only [argEval]
      rw [goP kvs h]
      rfl
where
  goL : ∀ (xs : List Val), isCellFree.goL xs = true → argEval.go xs = some xs
    | [], _ => rfl
    | x :: xs, h => by
        simp only [isCellFree.goL, Bool.and_eq_true] at h
        simp only [argEval.go]
        rw [argEval_cellFree x h.1, goL xs h.2]
        rfl
  goP : ∀ (xs : List (String × Val)), isCellFree.goP xs = true → argEval.goP xs = some xs
    | [], _ => rfl
    | (s, x) :: xs, h => by
        simp only [isCellFree.goP, Bool.and_eq_true] at h
        simp only [argEval.goP]
        rw [argEval_cellFree x h.1, goP xs h.2]
        rfl

theorem lookupNode_some_mem (g : Graph) (k : Val) (a : Attrs)
    (h : lookupNode g k = some a) : (k, a) ∈ g.nodes := by
  unfold lookupNode at h
  rw [Option.map_eq_some'] at h
  obtain ⟨p, hp, he⟩ := h
  have hmem := List.mem_of_find?_eq_some hp
  have hkey := List.find?_some hp
  simp only [decide_eq_true_eq] at hkey
  subst he
  rw [← hkey]
  simpa using hmem

theorem find?_map_update (k : Val) (d : Attrs) :
    ∀ (l : List (Val × Attrs)) (p : Val × Attrs),
      l.find? (fun q => decide (q.1 = k)) = some p →
      (l.map (fun q => if q.1 = k then (q.1, mergeAttrs q.2 d) else q)).find?
          (fun q => decide (q.1 = k)) = some (p.1, mergeAttrs p.2 d)
  | [], p, hp => by cases hp
  | q :: l, p, hp => by
      by_cases hq : q.1 = k
      · rw [List.find?_cons_of_pos _ (by simpa using hq)] at hp
        cases hp
        simp only [List.map_cons, hq, if_true]
        rw [List.find?_cons_of_pos _ (by simp [hq])]
      · rw [List.find?_cons_of_neg _ (by simpa using hq)] at hp
        simp only [List.map_cons, hq, if_false]
        rw [List.find?_cons_of_neg _ (by simpa using hq)]
        exact find?_map_update k d l p hp

theorem lookupNode_addNode_existing (g : Graph) (k : Val) (a d : Attrs)
    (h : lookupNode g k = some a) :
    lookupNode (addNode g k d) k = some (mergeAttrs a d) := by
  have hmem : k ∈ nodeKeys g := by
    by_contra hk
    rw [← lookupNode_eq_none_iff] at hk
    rw [h] at hk
    cases hk
  have hc : (nodeKeys g).contains k = true := by simpa using hmem
  simp only [addNode, hc, if_true]
  unfold lookupNode at h ⊢
  rw [Option.map_eq_some'] at h
  obtain ⟨p, hp, he⟩ := h
  simp only
  rw [find?_map_update k d g.nodes p hp]
  simp [he]

theorem setAttr_value_singleton (c v : Val) :
    setAttr [("value", c)] "value" v = [("value", v)] := by
  simp [setAttr]

theorem cellNodes_mem (g : Graph) (h : cellNodes g = true) (p : Val × Attrs)
    (hp : p ∈ g.nodes) : ∃ c, p.2 = [("value", c)] ∧ isCellV c = true := by
  unfold cellNodes at h
  rw [List.all_eq_true] at h
  have := h p hp
  match p, this with
  | (k, [(s, c)]), hh =>
      simp only [Bool.and_eq_true, beq_iff_eq] at hh
      exact ⟨c, by rw [hh.1], hh.2⟩

theorem xclGetItem_addNode_cell (g : Graph) (k payload : Val)
    (h : cellNodes g = true) (hcell : isCellV payload = true) :
    xclGetItem (addNode g (xkey k) (asDict payload)) k = some payload := by
  have hd : asDict payload = [("value", payload)] := by
    cases payload <;> simp [isCellV] at hcell <;> simp [asDict]
  unfold xclGetItem
  rw [hd]
  cases hl : lookupNode g (xkey k) with
  | none =>
      rw [lookupNode_addNode_fresh g (xkey k) _ ((lookupNode_eq_none_iff g (xkey k)).mp hl)]
      simp [asValue]
  | some a =>
      obtain ⟨c, hc, _⟩ := cellNodes_mem g h _ (lookupNode_some_mem g (xkey k) a hl)
      simp only at hc
      rw [lookupNode_addNode_existing g (xkey k) a _ hl]
      rw [hc]
      have hm : mergeAttrs [("value", c)] [("value", payload)] = [("value", payload)] := by
        simp [mergeAttrs, setAttr_value_singleton]
      rw [hm]
      simp [asValue]

/-- After `g[k] = v` through `XCL.__setitem__`, the payload at `k` is the
cell that was stored (the value itself when it is a cell, its `Cell(k, v)`
wrapping otherwise). -/
theorem xclGetItem_setItem (g : Graph) (k v : Val) (h : cellNodes g = true) :
    xclGetItem (xclSetItem g k v) k =
      some (if isCellV v then v else vcell k v [] []) := by
  by_cases hc : isCellV v
  · simp only [xclSetItem, hc, if_true]
    exact xclGetItem_addNode_cell g k v h hc
  · rw [Bool.not_eq_true] at hc
    simp only [xclSetItem, hc, Bool.false_eq_true, if_false]
    exact xclGetItem_addNode_cell g k (vcell k v [] []) h rfl

end Mombai

namespace Mombai
open Val

theorem cellNodes_addNode_cell (g : Graph) (k payload : Val)
    (h : cellNodes g = true) (hcell : isCellV payload = true) :
    cellNodes (addNode g k (asDict payload)) = true := by
  have hd : asDict payload = [("value", payload)] := by
    cases payload <;> simp [isCellV] at hcell <;> simp [asDict]
  rw [hd]
  unfold addNode
  by_cases hc : (nodeKeys g).contains k
  · rw [if_pos hc]
    unfold cellNodes at h ⊢
    simp only [List.all_map, List.all_eq_true] at h ⊢
    intro p hp
    by_cases hk : p.1 = k
    · simp only [Function.comp_apply, hk, if_true]
      have := h p hp
      match p, this with
      | (k', [(s, c)]), hh =>
          simp only [Bool.and_eq_true, beq_iff_eq] at hh
          simp only [hh.1, mergeAttrs, List.foldl_cons, List.foldl_nil,
            setAttr_value_singleton]
          simp [hcell]
    · simp only [Function.comp_apply, hk, if_false]
      exact h p hp
  · rw [if_neg hc]
    unfold cellNodes at h ⊢
    rw [List.all_append]
    rw [h]
    simp [hcell]

theorem cellNodes_setItem (g : Graph) (k v : Val) (h : cellNodes g = true) :
    cellNodes (xclSetItem g k v) = true := by
  by_cases hc : isCellV v
  · simp only [xclSetItem, hc, if_true]
    exact cellNodes_addNode_cell g (xkey k) v h hc
  · rw [Bool.not_eq_true] at hc
    simp only [xclSetItem, hc, Bool.false_eq_true, if_false]
    exact cellNodes_addNode_cell g (xkey k) (vcell k v [] []) h rfl

theorem cellNodes_addCellX : ∀ (c : Val) (g : Graph), cellNodes g = true →
    cellNodes (addCellX g c) = true
  | vint _, _, h => h
  | vstr _, _, h => h
  | vfn _, _, h => h
  | vdict _, _, h => h
  | vlist xs, g, h => by
      simp only [addCellX]
      exact goL xs g h
  | vcell n f a kw, g, h => by
      simp only [addCellX]
      exact goP kw _ (goL a _ (cellNodes_addCellX f _ (cellNodes_setItem g n _ h)))
where
  goL : ∀ (xs : List Val) (g : Graph), cellNodes g = true →
      cellNodes (addCellX.goL g xs) = true
    | [], _, h => h
    | x :: xs, g, h => goL xs _ (cellNodes_addCellX x g h)
  goP : ∀ (xs : List (String × Val)) (g : Graph), cellNodes g = true →
      cellNodes (addCellX.goP g xs) = true
    | [], _, h => h
    | (_, x) :: xs, g, h => goP xs _ (cellNodes_addCellX x g h)

theorem cellNodes_fromJsonNodes (j : List (String × Val)) :
    cellNodes (fromJsonNodes j) = true := by
  unfold fromJsonNodes
  simp only
  have : ∀ (l : List (Val × Val)) (g : Graph), cellNodes g = true →
      cellNodes (l.foldl (fun g kv => xclSetItem g kv.1 kv.2) g) = true := by
    intro l
    induction l with
    | nil => intro g h; exact h
    | cons kv l ih =>
        intro g h
        exact ih _ (cellNodes_setItem g kv.1 kv.2 h)
  exact this _ emptyGraph rfl

theorem evalCell_wrap (k v : Val) (hf : isCellFree v = true) (hfn : isFnV v = false) :
    evalCell (vcell k v [] []) = some v := by
  unfold evalCell
  have h1 : argEval.go [] = some [] := rfl
  have h2 : argEval.goP [] = some [] := rfl
  simp only [argEval, h1, h2]
  rw [argEval_cellFree v hf]
  cases v <;> simp [isFnV] at hfn ⊢ <;> rfl

end Mombai

namespace Mombai
open Val

/-- C10: `XCL.__setitem__` wraps every non-`Cell` value `v` assigned to key
`k` as `Cell(k, v)` before storing; the `{value: cell}` payload shape is
preserved by `__setitem__` itself, by insertion via `+` and by `from_json`'s
node-insertion stage; and reading back a key that was set to a plain value
returns a `Cell` whose evaluation yields the value — unlike the generic DAG,
which returns the plain value itself. -/
theorem c10_xcl_payloads_are_cells (g : Graph) (k v : Val) (hg : cellNodes g = true) :
    (isCellV v = false → xclGetItem (xclSetItem g k v) k = some (vcell k v [] [])) ∧
    (isCellFree v = true → isFnV v = false →
      (xclGetItem (xclSetItem g k v) k).map evalCell = some (some v)) ∧
    cellNodes (xclSetItem g k v) = true ∧
    (∀ c : Val, cellNodes (addCellX g c) = true) ∧
    (∀ j : List (String × Val), cellNodes (fromJsonNodes j) = true) ∧
    (k ∉ nodeKeys g → isMappingV v = false → isCellV v = false →
      dagGetItem (dagSetItem g k v) k = some v) := by
  refine ⟨?_, ?_, cellNodes_setItem g k v hg, fun c => cellNodes_addCellX c g hg,
    fun j => cellNodes_fromJsonNodes j, ?_⟩
  · intro hc
    rw [xclGetItem_setItem g k v hg, hc]
    rfl
  · intro hf hfn
    have hc : isCellV v = false := by
      cases v <;> simp [isCellV] <;> simp [isCellFree] at hf
    rw [xclGetItem_setItem g k v hg, hc]
    simp only [Bool.false_eq_true, if_false, Option.map_some']
    rw [evalCell_wrap k v hf hfn]
  · intro hk hm hc
    have hd : asDict v = [("value", v)] := by
      cases v <;> simp [asDict] <;> simp [isMappingV] at hm
    unfold dagSetItem dagGetItem
    rw [hd, lookupNode_addNode_fresh g k _ hk]
    simp [asValue]

theorem c10_witness :
    cellNodes emptyGraph = true ∧
    xclGetItem (xclSetItem emptyGraph (vstr "k") (vint 5)) (vstr "k") =
      some (vcell (vstr "k") (vint 5) [] []) ∧
    (xclGetItem (xclSetItem emptyGraph (vstr "k") (vint 5)) (vstr "k")).map evalCell =
      some (some (vint 5)) :=
  ⟨rfl,
   (c10_xcl_payloads_are_cells emptyGraph (vstr "k") (vint 5) rfl).1 rfl,
   (c10_xcl_payloads_are_cells emptyGraph (vstr "k") (vint 5) rfl).2.1 rfl rfl⟩

end Mombai

namespace Mombai
open Val

/-
C6: insert idempotence.  `g + c` is characterized as a sequence of node
writes (normalized key, payload cell); replaying the same sequence changes
neither the key list, nor any payload, nor the edges.
-/

/-- One `XCL.__setitem__` node write with an already-normalized key and a
cell payload. -/
def writeNode (g : Graph) (kv : Val × Val) : Graph :=
  addNode g kv.1 [("value", kv.2)]

/-- Replay a sequence of node writes. -/
def writeAll (g : Graph) (ws : List (Val × Val)) : Graph :=
  ws.foldl writeNode g

/-- The node-write sequence performed by `graph + cell`, in order. -/
def cellWrites : Val → List (Val × Val)
  | c@(vcell n f a kw) =>
      (xkey n, c) :: (cellWrites f ++ goL a ++ goP kw)
  | vlist xs => goL xs
  | _ => []
where
  goL : List Val → List (Val × Val)
    | [] => []
    | x :: xs => cellWrites x ++ goL xs
  goP : List (String × Val) → List (Val × Val)
    | [] => []
    | (_, x) :: xs => cellWrites x ++ goP xs

theorem xclSetItem_cell (g : Graph) (n : Val) (c : Val) (hc : isCellV c = true) :
    xclSetItem g n c = writeNode g (xkey n, c) := by
  simp only [xclSetItem, hc, if_true, writeNode]
  have : asDict c = [("value", c)] := by
    cases c <;> simp [isCellV] at hc <;> simp [asDict]
  rw [this]

theorem addCellX_writes : ∀ (c : Val) (g : Graph), addCellX g c = writeAll g (cellWrites c)
  | vint _, g => rfl
  | vstr _, g => rfl
  | vfn _, g => rfl
  | vdict _, g => rfl
  | vlist xs, g => by
      simp only [addCellX, cellWrites]
      exact goL xs g
  | vcell n f a kw, g => by
      simp only [addCellX, cellWrites]
      rw [xclSetItem_cell g n (vcell n f a kw) rfl]
      unfold writeAll
      rw [List.foldl_cons, List.foldl_append, List.foldl_append]
      rw [addCellX_writes f, goL a, goP kw]
      rfl
where
  goL : ∀ (xs : List Val) (g : Graph), addCellX.goL g xs = writeAll g (cellWrites.goL xs)
    | [], g => rfl
    | x :: xs, g => by
        simp only [addCellX.goL, cellWrites.goL]
        unfold writeAll
        rw [List.foldl_append]
        rw [addCellX_writes x, goL xs]
        rfl
  goP : ∀ (xs : List (String × Val)) (g : Graph),
      addCellX.goP g xs = writeAll g (cellWrites.goP xs)
    | [], g => rfl
    | (s, x) :: xs, g => by
        simp only [addCellX.goP, cellWrites.goP]
        unfold writeAll
        rw [List.foldl_append]
        rw [addCellX_writes x, goP xs]
        rfl

theorem map_fst_setAttr (A : Attrs) (s : String) (x : Val) :
    (setAttr A s x).map Prod.fst =
      if (A.map Prod.fst).contains s then A.map Prod.fst else A.map Prod.fst ++ [s] := by
  unfold setAttr
  by_cases hc : (A.map Prod.fst).contains s
  · rw [if_pos hc, if_pos hc, List.map_map]
    apply List.map_congr_left
    intro p _
    by_cases hp : p.1 = s <;> simp [hp]
  · rw [if_neg hc, if_neg hc]
    simp

theorem setAttr_setAttr (A : Attrs) (s : String) (x y : Val) :
    setAttr (setAttr A s x) s y = setAttr A s y := by
  by_cases hc : (A.map Prod.fst).contains s
  · have h1 : setAttr A s x = A.map (fun p => if p.1 = s then (p.1, x) else p) := by
      unfold setAttr
      rw [if_pos hc]
    have h2 : ((A.map (fun p => if p.1 = s then (p.1, x) else p)).map Prod.fst).contains s = true := by
      have := map_fst_setAttr A s x
      rw [h1] at this
      rw [this, if_pos hc]
      exact hc
    rw [h1]
    unfold setAttr
    rw [if_pos h2, if_pos hc, List.map_map]
    apply List.map_congr_left
    intro p _
    by_cases hp : p.1 = s <;> simp [hp]
  · have h1 : setAttr A s x = A ++ [(s, x)] := by
      unfold setAttr
      rw [if_neg hc]
    have hnot : ∀ p ∈ A, ¬ p.1 = s := by
      intro p hp he
      apply hc
      rw [List.contains_eq_any_beq, List.any_eq_true]
      exact ⟨p.1, List.mem_map.mpr ⟨p, hp, rfl⟩, by simp [he]⟩
    have h2 : (((A ++ [(s, x)]).map Prod.fst)).contains s = true := by
      rw [List.contains_eq_any_beq, List.any_eq_true]
      exact ⟨s, by simp⟩
    rw [h1]
    unfold setAttr
    rw [if_pos h2, if_neg hc, List.map_append]
    have hA : A.map (fun p => if p.1 = s then (p.1, y) else p) = A := by
      have hmap : A.map (fun p => if p.1 = s then (p.1, y) else p) = A.map id := by
        apply List.map_congr_left
        intro p hp
        simp [hnot p hp]
      rw [hmap, List.map_id]
    rw [hA]
    simp

end Mombai

namespace Mombai
open Val

theorem find?_append_of_some {α : Type} (p : α → Bool) (l1 l2 : List α) (x : α)
    (h : l1.find? p = some x) : (l1 ++ l2).find? p = some x := by
  induction l1 with
  | nil => cases h
  | cons a l ih =>
      cases hp : p a with
      | true =>
          rw [List.find?_cons_of_pos _ hp] at h
          rw [List.cons_append, List.find?_cons_of_pos _ hp]
          exact h
      | false =>
          rw [List.find?_cons_of_neg _ (by simp [hp])] at h
          rw [List.cons_append, List.find?_cons_of_neg _ (by simp [hp])]
          exact ih h

theorem find?_map_update_other (k k' : Val) (d : Attrs) (hne : k' ≠ k) :
    ∀ (l : List (Val × Attrs)),
      (l.map (fun q => if q.1 = k then (q.1, mergeAttrs q.2 d) else q)).find?
          (fun q => decide (q.1 = k')) = l.find? (fun q => decide (q.1 = k'))
  | [] => rfl
  | q :: l => by
      by_cases hq : q.1 = k'
      · have hqk : ¬ q.1 = k := by rw [hq]; exact hne
        simp only [List.map_cons, hqk, if_false]
        rw [List.find?_cons_of_pos _ (by simpa using hq),
          List.find?_cons_of_pos _ (by simpa using hq)]
      · by_cases hqk : q.1 = k
        · simp only [List.map_cons, hqk, if_true]
          rw [List.find?_cons_of_neg _ (by simpa using fun h : k = k' => hne h.symm)]
          rw [List.find?_cons_of_neg _ (by simpa using hq)]
          exact find?_map_update_other k k' d hne l
        · simp only [List.map_cons, hqk, if_false]
          rw [List.find?_cons_of_neg _ (by simpa using hq),
            List.find?_cons_of_neg _ (by simpa using hq)]
          exact find?_map_update_other k k' d hne l

theorem lookupNode_addNode_other (g : Graph) (k k' : Val) (d : Attrs) (hne : k' ≠ k) :
    lookupNode (addNode g k d) k' = lookupNode g k' := by
  unfold addNode
  by_cases hc : (nodeKeys g).contains k
  · rw [if_pos hc]
    unfold lookupNode
    simp only
    rw [find?_map_update_other k k' d hne]
  · rw [if_neg hc]
    unfold lookupNode
    simp only
    cases hf : g.nodes.find? (fun q => decide (q.1 = k')) with
    | some p => rw [find?_append_of_some _ _ _ _ hf]
    | none =>
        rw [find?_append_of_none _ _ _ hf]
        rw [List.find?_cons_of_neg _ (by simpa using fun h : k = k' => hne h.symm)]
        simp [hf]

end Mombai

namespace Mombai
open Val

theorem mergeAttrs_single (a : Attrs) (s : String) (v : Val) :
    mergeAttrs a [(s, v)] = setAttr a s v := rfl

theorem lookupNode_writeNode (g : Graph) (kv : Val × Val) (k' : Val) :
    lookupNode (writeNode g kv) k' =
      if k' = kv.1 then some (setAttr ((lookupNode g kv.1).getD []) "value" kv.2)
      else lookupNode g k' := by
  by_cases hk : k' = kv.1
  · rw [if_pos hk, hk]
    cases hl : lookupNode g kv.1 with
    | none =>
        unfold writeNode
        rw [lookupNode_addNode_fresh g kv.1 _ ((lookupNode_eq_none_iff g kv.1).mp hl)]
        simp [setAttr]
    | some a =>
        unfold writeNode
        rw [lookupNode_addNode_existing g kv.1 a _ hl]
        simp [mergeAttrs_single]
  · rw [if_neg hk]
    exact lookupNode_addNode_other g kv.1 k' _ hk

theorem nodeKeys_addNode (g : Graph) (k : Val) (d : Attrs) :
    nodeKeys (addNode g k d) =
      if k ∈ nodeKeys g then nodeKeys g else nodeKeys g ++ [k] := by
  unfold addNode
  by_cases hc : k ∈ nodeKeys g
  · rw [if_pos hc, if_pos (by simpa using hc)]
    unfold nodeKeys
    simp only [List.map_map]
    apply List.map_congr_left
    intro p _
    by_cases hp : p.1 = k <;> simp [hp]
  · rw [if_neg hc, if_neg (by simpa using hc)]
    unfold nodeKeys
    simp

theorem edges_writeNode (g : Graph) (kv : Val × Val) :
    (writeNode g kv).edges = g.edges := by
  unfold writeNode addNode
  split <;> rfl

theorem edges_writeAll (g : Graph) : ∀ (ws : List (Val × Val)),
    (writeAll g ws).edges = g.edges := by
  intro ws
  induction ws generalizing g with
  | nil => rfl
  | cons kv ws ih =>
      unfold writeAll
      rw [List.foldl_cons]
      have := ih (writeNode g kv)
      unfold writeAll at this
      rw [this, edges_writeNode]

/-- The sequence of payloads written to key `k` by a write sequence. -/
def writesTo (ws : List (Val × Val)) (k : Val) : List Val :=
  ws.filterMap (fun kv => if kv.1 = k then some kv.2 else none)

/-- Replay the per-key value writes on an optional attribute dict. -/
def applyW : Option Attrs → List Val → Option Attrs
  | a, [] => a
  | a, c :: cs => applyW (some (setAttr (a.getD []) "value" c)) cs

theorem lookupNode_writeAll (k : Val) : ∀ (ws : List (Val × Val)) (g : Graph),
    lookupNode (writeAll g ws) k = applyW (lookupNode g k) (writesTo ws k)
  | [], g => rfl
  | kv :: ws, g => by
      unfold writeAll
      rw [List.foldl_cons]
      have ih := lookupNode_writeAll k ws (writeNode g kv)
      unfold writeAll at ih
      rw [ih]
      unfold writesTo
      rw [List.filterMap_cons]
      by_cases hk : kv.1 = k
      · rw [if_pos hk]
        simp only [applyW]
        rw [lookupNode_writeNode, if_pos hk.symm, hk]
      · rw [if_neg hk]
        rw [lookupNode_writeNode, if_neg (fun h => hk h.symm)]

theorem applyW_last : ∀ (cs : List Val) (A : Attrs) (x : Val),
    applyW (some (setAttr A "value" x)) cs = some (setAttr A "value" (cs.getLastD x))
  | [], _, _ => rfl
  | c :: cs, A, x => by
      show applyW (some (setAttr (setAttr A "value" x) "value" c)) cs = _
      rw [setAttr_setAttr]
      rw [applyW_last cs A c]
      rw [List.getLastD_cons]

theorem applyW_applyW (a : Option Attrs) (cs : List Val) :
    applyW (applyW a cs) cs = applyW a cs := by
  cases cs with
  | nil => rfl
  | cons c cs =>
      show applyW (applyW (some (setAttr (a.getD []) "value" c)) cs) (c :: cs) = _
      rw [applyW_last cs (a.getD []) c]
      show applyW (some (setAttr (setAttr (a.getD []) "value" (cs.getLastD c)) "value" c)) cs = _
      rw [setAttr_setAttr]
      rw [applyW_last cs (a.getD []) c]
      show _ = applyW (some (setAttr (a.getD []) "value" c)) cs
      rw [applyW_last cs (a.getD []) c]

theorem mem_nodeKeys_writeAll (k : Val) : ∀ (ws : List (Val × Val)) (g : Graph),
    k ∈ nodeKeys (writeAll g ws) ↔ k ∈ nodeKeys g ∨ k ∈ ws.map Prod.fst
  | [], g => by simp [writeAll]
  | kv :: ws, g => by
      unfold writeAll
      rw [List.foldl_cons]
      have ih := mem_nodeKeys_writeAll k ws (writeNode g kv)
      unfold writeAll at ih
      rw [ih]
      unfold writeNode
      rw [nodeKeys_addNode, List.map_cons]
      by_cases hc : kv.1 ∈ nodeKeys g
      · rw [if_pos hc]
        constructor
        · rintro (h | h)
          · exact Or.inl h
          · exact Or.inr (List.mem_cons.mpr (Or.inr h))
        · rintro (h | h)
          · exact Or.inl h
          · rcases List.mem_cons.mp h with h | h
            · exact Or.inl (h ▸ hc)
            · exact Or.inr h
      · rw [if_neg hc]
        constructor
        · rintro (h | h)
          · rcases List.mem_append.mp h with h | h
            · exact Or.inl h
            · exact Or.inr (List.mem_cons.mpr (Or.inl (by simpa using h)))
          · exact Or.inr (List.mem_cons.mpr (Or.inr h))
        · rintro (h | h)
          · exact Or.inl (List.mem_append.mpr (Or.inl h))
          · rcases List.mem_cons.mp h with h | h
            · exact Or.inl (List.mem_append.mpr (Or.inr (by simp [h])))
            · exact Or.inr h

theorem nodeKeys_writeAll_noop : ∀ (ws : List (Val × Val)) (g : Graph),
    (∀ kv ∈ ws, kv.1 ∈ nodeKeys g) → nodeKeys (writeAll g ws) = nodeKeys g
  | [], g, _ => rfl
  | kv :: ws, g, h => by
      unfold writeAll
      rw [List.foldl_cons]
      have hk : kv.1 ∈ nodeKeys g := h kv (by simp)
      have hkeys : nodeKeys (writeNode g kv) = nodeKeys g := by
        unfold writeNode
        rw [nodeKeys_addNode, if_pos hk]
      have ih := nodeKeys_writeAll_noop ws (writeNode g kv) (by
        intro p hp
        rw [hkeys]
        exact h p (by simp [hp]))
      unfold writeAll at ih
      rw [ih, hkeys]

end Mombai

namespace Mombai
open Val

/-- C6: inserting the same cell a second time is a no-op — after
`g1 = g + c`, the graph `g1 + c` has the same node key list, the same
attribute dict at every key, and the same edges as `g1`.  (Replaying the
identical write sequence merges each `{value: cell}` payload over itself.) -/
theorem c6_insert_idempotent (g : Graph) (c : Val) :
    nodeKeys (addCellX (addCellX g c) c) = nodeKeys (addCellX g c) ∧
    (∀ k, lookupNode (addCellX (addCellX g c) c) k = lookupNode (addCellX g c) k) ∧
    (addCellX (addCellX g c) c).edges = (addCellX g c).edges := by
  rw [addCellX_writes c g, addCellX_writes c (writeAll g (cellWrites c))]
  refine ⟨?_, ?_, ?_⟩
  · apply nodeKeys_writeAll_noop
    intro kv hkv
    rw [mem_nodeKeys_writeAll]
    exact Or.inr (List.mem_map.mpr ⟨kv, hkv, rfl⟩)
  · intro k
    rw [lookupNode_writeAll, lookupNode_writeAll]
    exact applyW_applyW _ _
  · exact edges_writeAll _ _

end Mombai

namespace Mombai
open Val

/-
Kahn's algorithm: structure, ordering and completeness lemmas.
-/

theorem filter_not_mem_filter (p : Val → Bool) (rem : List Val) :
    rem.filter (fun k => !(rem.filter p).contains k) = rem.filter (fun k => !p k) := by
  apply List.filter_congr
  intro k hk
  by_cases hp : p k
  · have hc : (rem.filter p).contains k = true := by
      simp only [List.contains_eq_any_beq, List.any_eq_true]
      exact ⟨k, List.mem_filter.mpr ⟨hk, hp⟩, by simp⟩
    rw [hc, hp]
  · have hc : (rem.filter p).contains k = false := by
      rw [Bool.eq_false_iff]
      intro hcc
      simp only [List.contains_eq_any_beq, List.any_eq_true] at hcc
      obtain ⟨w, hw, hbeq⟩ := hcc
      cases eq_of_beq hbeq
      exact hp ((List.mem_filter.mp hw).2)
    have hp' : p k = false := by
      rw [Bool.eq_false_iff]
      exact hp
    rw [hc, hp']

theorem kahn_ok_shape (E : List ((Val × Val) × Attrs)) :
    ∀ (fuel : Nat) (rem acc ks : List Val), kahnAux E fuel rem acc = .ok ks →
      ∃ tail, ks = acc ++ tail ∧ tail.Perm rem
  | 0, rem, acc, ks, h => by
      unfold kahnAux at h
      by_cases hr : rem.isEmpty
      · rw [if_pos hr] at h
        cases h
        exact ⟨[], by simp, by simp [List.isEmpty_iff.mp hr]⟩
      · rw [if_neg hr] at h
        cases h
  | fuel + 1, rem, acc, ks, h => by
      unfold kahnAux at h
      by_cases hready : (rem.filter (noIncoming E rem)).isEmpty
      · simp only [hready, if_true] at h
        by_cases hr : rem.isEmpty
        · rw [if_pos hr] at h
          cases h
          exact ⟨[], by simp, by simp [List.isEmpty_iff.mp hr]⟩
        · rw [if_neg hr] at h
          cases h
      · simp only [hready, Bool.false_eq_true, if_false] at h
        obtain ⟨tail, hks, hperm⟩ := kahn_ok_shape E fuel _ _ ks h
        refine ⟨rem.filter (noIncoming E rem) ++ tail, by simp [hks], ?_⟩
        rw [filter_not_mem_filter] at hperm
        have h1 : (rem.filter (noIncoming E rem) ++ tail).Perm
            (rem.filter (noIncoming E rem) ++ rem.filter (fun k => !(noIncoming E rem k))) :=
          List.Perm.append_left _ hperm
        exact h1.trans (List.filter_append_perm _ rem)

theorem mem_left_of_append_eq {α : Type} (v : α) :
    ∀ (A l1 : List α) (B l2 : List α), A ++ B = l1 ++ v :: l2 → v ∉ A →
      ∀ u ∈ A, u ∈ l1
  | [], _, _, _, _, _, u, hu => absurd hu (by simp)
  | a :: A', l1, B, l2, h, hv, u, hu => by
      cases l1 with
      | nil =>
          simp only [List.nil_append] at h
          rw [List.cons_append] at h
          have : a = v := by
            have := congrArg (fun l => l.head?) h
            simpa using this
          exact absurd (this ▸ List.mem_cons_self a A') hv
      | cons b l1' =>
          rw [List.cons_append, List.cons_append] at h
          have hab : a = b := by
            have := congrArg (fun l => l.head?) h
            simpa using this
          have htl : A' ++ B = l1' ++ v :: l2 := by
            have := congrArg (fun l => l.tail) h
            simpa using this
          rcases List.mem_cons.mp hu with hua | huA
          · exact List.mem_cons.mpr (Or.inl (hua.trans hab))
          · exact List.mem_cons.mpr (Or.inr
              (mem_left_of_append_eq v A' l1' B l2 htl (fun hvm => hv (List.mem_cons.mpr (Or.inr hvm))) u huA))

theorem kahn_ok_order (E : List ((Val × Val) × Attrs)) :
    ∀ (fuel : Nat) (rem acc ks : List Val), kahnAux E fuel rem acc = .ok ks →
      rem.Nodup → (∀ x ∈ acc, x ∉ rem) →
      ∀ v l1 l2, ks = l1 ++ v :: l2 → v ∈ rem →
      ∀ u, (u, v) ∈ E.map Prod.fst → u ∈ rem → u ∈ l1
  | 0, rem, acc, ks, h, _, _, v, l1, l2, hks, hv, u, hedge, hu => by
      unfold kahnAux at h
      by_cases hr : rem.isEmpty
      · rw [List.isEmpty_iff.mp hr] at hv
        cases hv
      · rw [if_neg hr] at h
        cases h
  | fuel + 1, rem, acc, ks, h, hnd, hdisj, v, l1, l2, hks, hv, u, hedge, hu => by
      unfold kahnAux at h
      by_cases hready : (rem.filter (noIncoming E rem)).isEmpty
      · simp only [hready, if_true] at h
        by_cases hr : rem.isEmpty
        · rw [List.isEmpty_iff.mp hr] at hv
          cases hv
        · rw [if_neg hr] at h
          cases h
      · simp only [hready, Bool.false_eq_true, if_false] at h
        by_cases hvr : noIncoming E rem v
        · exfalso
          unfold noIncoming at hvr
          rw [List.all_eq_true] at hvr
          obtain ⟨e, hemem, heq⟩ := List.mem_map.mp hedge
          have := hvr e hemem
          rw [heq] at this
          simp [hu] at this
        · have hvrem' : v ∈ rem.filter (fun k => !(rem.filter (noIncoming E rem)).contains k) := by
            rw [filter_not_mem_filter]
            rw [List.mem_filter]
            exact ⟨hv, by simp [hvr]⟩
          by_cases hur : noIncoming E rem u
          · have hu_acc : u ∈ acc ++ rem.filter (noIncoming E rem) := by
              rw [List.mem_append]
              exact Or.inr (List.mem_filter.mpr ⟨hu, hur⟩)
            obtain ⟨tail, hks', hperm⟩ := kahn_ok_shape E fuel _ _ ks h
            have hvtail : v ∈ tail := hperm.mem_iff.mpr hvrem'
            have hvnot : v ∉ acc ++ rem.filter (noIncoming E rem) := by
              rw [List.mem_append]
              rintro (hva | hvr')
              · exact hdisj v hva hv
              · exact absurd ((List.mem_filter.mp hvr').2) (by simpa using hvr)
            rw [hks] at hks'
            exact mem_left_of_append_eq v _ l1 tail l2 hks'.symm hvnot u hu_acc
          · have hurem' : u ∈ rem.filter (fun k => !(rem.filter (noIncoming E rem)).contains k) := by
              rw [filter_not_mem_filter]
              rw [List.mem_filter]
              exact ⟨hu, by simp [hur]⟩
            refine kahn_ok_order E fuel _ _ ks h (List.Nodup.filter _ hnd) ?_ v l1 l2 hks hvrem' u hedge hurem'
            intro x hx
            rw [filter_not_mem_filter, List.mem_filter]
            rintro ⟨hxrem, hxp⟩
            rcases List.mem_append.mp hx with hxa | hxr
            · exact hdisj x hxa hxrem
            · have := (List.mem_filter.mp hxr).2
              simp only [Bool.not_eq_true'] at hxp
              rw [hxp] at this
              cases this

theorem list_exists_min_image {α : Type} (f : α → Nat) :
    ∀ (l : List α), l ≠ [] → ∃ a ∈ l, ∀ b ∈ l, f a ≤ f b
  | [], h => absurd rfl h
  | [a], _ => ⟨a, by simp, by
      intro b hb
      rw [List.mem_singleton] at hb
      rw [hb]⟩
  | a :: b :: l, _ => by
      obtain ⟨m, hm, hmin⟩ := list_exists_min_image f (b :: l) (by simp)
      by_cases hc : f a ≤ f m
      · refine ⟨a, by simp, ?_⟩
        intro x hx
        rcases List.mem_cons.mp hx with hxa | hxl
        · rw [hxa]
        · exact hc.trans (hmin x hxl)
      · refine ⟨m, List.mem_cons.mpr (Or.inr hm), ?_⟩
        intro x hx
        rcases List.mem_cons.mp hx with hxa | hxl
        · rw [hxa]
          omega
        · exact hmin x hxl

theorem kahn_complete (E : List ((Val × Val) × Attrs)) (mu : Val → Nat)
    (hE : ∀ uv ∈ E.map Prod.fst, mu uv.1 < mu uv.2) :
    ∀ (fuel : Nat) (rem acc : List Val), rem.length ≤ fuel →
      ∃ ks, kahnAux E fuel rem acc = .ok ks
  | 0, rem, acc, hlen => by
      have : rem = [] := List.length_eq_zero.mp (Nat.le_zero.mp hlen)
      subst this
      exact ⟨acc, by unfold kahnAux; simp⟩
  | fuel + 1, rem, acc, hlen => by
      by_cases hr : rem.isEmpty
      · rw [List.isEmpty_iff.mp hr]
        refine ⟨acc, ?_⟩
        unfold kahnAux
        simp
      · have hne : rem ≠ [] := by simpa using hr
        obtain ⟨v, hv, hmin⟩ := list_exists_min_image mu rem hne
        have hvready : noIncoming E rem v = true := by
          unfold noIncoming
          rw [List.all_eq_true]
          intro e he
          by_cases h2 : e.1.2 = v
          · by_cases h1 : e.1.1 ∈ rem
            · exfalso
              have := hE e.1 (List.mem_map.mpr ⟨e, he, rfl⟩)
              rw [h2] at this
              exact absurd (hmin e.1.1 h1) (by omega)
            · simp [h1]
          · simp [h2]
        have hready : ¬ (rem.filter (noIncoming E rem)).isEmpty := by
          rw [List.isEmpty_iff]
          intro hnil
          have : v ∈ rem.filter (noIncoming E rem) := List.mem_filter.mpr ⟨hv, hvready⟩
          rw [hnil] at this
          cases this
        have hlt : (rem.filter (fun k => !(rem.filter (noIncoming E rem)).contains k)).length < rem.length := by
          rw [List.length_filter_lt_length_iff_exists]
          refine ⟨v, hv, ?_⟩
          have hcv : (rem.filter (noIncoming E rem)).contains v = true := by
            simp only [List.contains_eq_any_beq, List.any_eq_true]
            exact ⟨v, List.mem_filter.mpr ⟨hv, hvready⟩, by simp⟩
          rw [hcv]
          simp
        obtain ⟨ks, hks⟩ := kahn_complete E mu hE fuel
          (rem.filter (fun k => !(rem.filter (noIncoming E rem)).contains k))
          (acc ++ rem.filter (noIncoming E rem)) (by omega)
        refine ⟨ks, ?_⟩
        unfold kahnAux
        simp only [hready, Bool.false_eq_true, if_false]
        exact hks

end Mombai

namespace Mombai
open Val

/-
C7: a reference to a missing node makes from_id fail with a KeyError naming
the missing key.
-/

/-- The lookup key of a reference string `s = '@t'`: `int(t) if _is_int(t)
else t` (the argument `_from_id` passes to `graph[...]`). -/
def refKey (s : String) : Val :=
  if isIntStr (strTail s) then vint (parseIntStr (strTail s)) else vstr (strTail s)

/-- The normalized node key a reference resolves to (and the key named by
the `KeyError` when it is absent). -/
def refLookupKey (s : String) : Val := xkey (refKey s)

/-- The reference strings `_from_id` would try to resolve inside a value:
reference strings themselves, and array elements recursively; dict values and
embedded cells are not traversed (`_graph.py` lines 114-121). -/
def refsIn : Val → List String
  | vstr s => if isRefStr s then [s] else []
  | vlist xs => goL xs
  | _ => []
where
  goL : List Val → List String
    | [] => []
    | x :: xs => refsIn x ++ goL xs

/-- The reference strings `from_id` resolves when processing a cell payload:
those of its function, its positional arguments and its keyword values. -/
def cellRefs : Val → List String
  | vcell _ f a kw => refsIn f ++ goL a ++ goP kw
  | _ => []
where
  goL : List Val → List String
    | [] => []
    | x :: xs => refsIn x ++ goL xs
  goP : List (String × Val) → List String
    | [] => []
    | (_, x) :: xs => refsIn x ++ goP xs

theorem refsIn_goL_eq (xs : List Val) : cellRefs.goL xs = refsIn.goL xs := by
  induction xs with
  | nil => rfl
  | cons x xs ih => simp only [cellRefs.goL, refsIn.goL, ih]

theorem xclGetItem_cellNodes (r : Graph) (hcn : cellNodes r = true) (k : Val)
    (hmem : xkey k ∈ nodeKeys r) :
    ∃ c, xclGetItem r k = some c ∧ isCellV c = true ∧
      lookupNode r (xkey k) = some [("value", c)] := by
  cases hl : lookupNode r (xkey k) with
  | none => exact absurd hmem ((lookupNode_eq_none_iff r (xkey k)).mp hl)
  | some a =>
      obtain ⟨c, hc, hcell⟩ := cellNodes_mem r hcn _ (lookupNode_some_mem r (xkey k) a hl)
      simp only at hc
      refine ⟨c, ?_, hcell, by rw [hc]⟩
      unfold xclGetItem
      rw [hl, hc]
      simp [asValue]

theorem refsIn_cell (c : Val) (hc : isCellV c = true) : refsIn c = [] := by
  cases c <;> simp [isCellV] at hc <;> rfl

theorem fromIdVal_spec (r : Graph) (k0 : Val) (hk0 : k0 ∉ nodeKeys r)
    (hcn : cellNodes r = true) :
    ∀ v, (∀ s ∈ refsIn v, refLookupKey s = k0 ∨ refLookupKey s ∈ nodeKeys r) →
      ((k0 ∈ (refsIn v).map refLookupKey → fromIdVal r v = .error (.keyError k0)) ∧
       (k0 ∉ (refsIn v).map refLookupKey → ∃ v', fromIdVal r v = .ok v' ∧ refsIn v' = []))
  | vint n, _ => ⟨fun h => absurd h (by simp [refsIn]), fun _ => ⟨vint n, rfl, rfl⟩⟩
  | vfn f, _ => ⟨fun h => absurd h (by simp [refsIn]), fun _ => ⟨vfn f, rfl, rfl⟩⟩
  | vdict d, _ => ⟨fun h => absurd h (by simp [refsIn]), fun _ => ⟨vdict d, rfl, rfl⟩⟩
  | vcell n f a kw, _ =>
      ⟨fun h => absurd h (by simp [refsIn]), fun _ => ⟨vcell n f a kw, rfl, rfl⟩⟩
  | vstr s, hrefs => by
      by_cases hr : isRefStr s
      · have hs : refsIn (vstr s) = [s] := by simp [refsIn, hr]
        have hdisj := hrefs s (by simp [hs])
        constructor
        · intro hmem
          rw [hs] at hmem
          simp only [List.map_cons, List.map_nil, List.mem_singleton] at hmem
          have hnone : lookupNode r (refLookupKey s) = none := by
            rw [lookupNode_eq_none_iff]
            rw [← hmem]
            exact hk0
          simp only [fromIdVal, hr, if_true]
          have hxg : xclGetItem r (refKey s) = none := by
            unfold xclGetItem
            unfold refLookupKey at hnone
            rw [hnone]
            rfl
          have hkeq : (if isIntStr (strTail s) = true then vint (parseIntStr (strTail s))
              else vstr (strTail s)) = refKey s := rfl
          rw [hkeq, hxg]
          unfold refLookupKey at hmem
          rw [← hmem]
        · intro hmem
          rw [hs] at hmem
          simp only [List.map_cons, List.map_nil, List.mem_singleton] at hmem
          have hin : refLookupKey s ∈ nodeKeys r := by
            rcases hdisj with h | h
            · exact absurd h.symm hmem
            · exact h
          obtain ⟨c, hget, hcell, _⟩ := xclGetItem_cellNodes r hcn (refKey s) hin
          refine ⟨c, ?_, refsIn_cell c hcell⟩
          simp only [fromIdVal, hr, if_true]
          have hkeq : (if isIntStr (strTail s) = true then vint (parseIntStr (strTail s))
              else vstr (strTail s)) = refKey s := rfl
          rw [hkeq, hget]
      · refine ⟨fun h => ?_, fun _ => ⟨vstr s, ?_, by simp [refsIn, hr]⟩⟩
        · simp [refsIn, hr] at h
        · have hr' : isRefStr s = false := by
            rw [Bool.eq_false_iff]
            exact hr
          simp only [fromIdVal, hr', Bool.false_eq_true, if_false]
  | vlist xs, hrefs => by
      have hgo := goSpec r k0 hk0 hcn xs (by
        intro s hs
        exact hrefs s (by simpa [refsIn] using hs))
      constructor
      · intro hmem
        simp only [refsIn] at hmem
        simp only [fromIdVal]
        rw [(hgo.1 hmem : fromIdVal.goL r xs = .error (.keyError k0))]
        rfl
      · intro hmem
        simp only [refsIn] at hmem
        obtain ⟨ys, hys, hrefs'⟩ := hgo.2 hmem
        refine ⟨vlist ys, ?_, by simpa [refsIn] using hrefs'⟩
        simp only [fromIdVal]
        rw [hys]
        rfl
where
  goSpec (r : Graph) (k0 : Val) (hk0 : k0 ∉ nodeKeys r) (hcn : cellNodes r = true) :
      ∀ (xs : List Val),
        (∀ s ∈ refsIn.goL xs, refLookupKey s = k0 ∨ refLookupKey s ∈ nodeKeys r) →
        ((k0 ∈ (refsIn.goL xs).map refLookupKey →
            fromIdVal.goL r xs = .error (.keyError k0)) ∧
         (k0 ∉ (refsIn.goL xs).map refLookupKey →
            ∃ ys, fromIdVal.goL r xs = .ok ys ∧ refsIn.goL ys = []))
    | [], _ => ⟨fun h => absurd h (by simp [refsIn.goL]), fun _ => ⟨[], rfl, rfl⟩⟩
    | x :: xs, hrefs => by
        have hx := fromIdVal_spec r k0 hk0 hcn x (fun s hs =>
          hrefs s (by simp [refsIn.goL, hs]))
        have hxs := goSpec r k0 hk0 hcn xs (fun s hs =>
          hrefs s (by simp [refsIn.goL, hs]))
        constructor
        · intro hmem
          simp only [refsIn.goL, List.map_append, List.mem_append] at hmem
          rcases hmem with hmem | hmem
          · simp only [fromIdVal.goL]
            rw [hx.1 hmem]
            rfl
          · by_cases hxin : k0 ∈ (refsIn x).map refLookupKey
            · simp only [fromIdVal.goL]
              rw [hx.1 hxin]
              rfl
            · obtain ⟨y, hy, _⟩ := hx.2 hxin
              simp only [fromIdVal.goL]
              rw [hy, hxs.1 hmem]
              rfl
        · intro hmem
          simp only [refsIn.goL, List.map_append, List.mem_append] at hmem
          push_neg at hmem
          obtain ⟨y, hy, hyrefs⟩ := hx.2 hmem.1
          obtain ⟨ys, hys, hysrefs⟩ := hxs.2 hmem.2
          refine ⟨y :: ys, ?_, by simp [refsIn.goL, hyrefs, hysrefs]⟩
          simp only [fromIdVal.goL]
          rw [hy, hys]
          rfl

end Mombai

namespace Mombai
open Val

theorem processNode_goA_eq (r : Graph) : ∀ (xs : List Val),
    processNode.goA r xs = fromIdVal.goL r xs
  | [] => rfl
  | x :: xs => by
      simp only [processNode.goA, fromIdVal.goL]
      rw [processNode_goA_eq r xs]

theorem goK_spec (r : Graph) (k0 : Val) (hk0 : k0 ∉ nodeKeys r)
    (hcn : cellNodes r = true) :
    ∀ (kw : List (String × Val)),
      (∀ s ∈ cellRefs.goP kw, refLookupKey s = k0 ∨ refLookupKey s ∈ nodeKeys r) →
      ((k0 ∈ (cellRefs.goP kw).map refLookupKey →
          processNode.goK r kw = .error (.keyError k0)) ∧
       (k0 ∉ (cellRefs.goP kw).map refLookupKey →
          ∃ kw', processNode.goK r kw = .ok kw' ∧ cellRefs.goP kw' = []))
  | [], _ => ⟨fun h => absurd h (by simp [cellRefs.goP]), fun _ => ⟨[], rfl, rfl⟩⟩
  | (t, x) :: kw, hrefs => by
      have hx := fromIdVal_spec r k0 hk0 hcn x (fun s hs =>
        hrefs s (by simp [cellRefs.goP, hs]))
      have hkw := goK_spec r k0 hk0 hcn kw (fun s hs =>
        hrefs s (by simp [cellRefs.goP, hs]))
      constructor
      · intro hmem
        simp only [cellRefs.goP, List.map_append, List.mem_append] at hmem
        rcases hmem with hmem | hmem
        · simp only [processNode.goK]
          rw [hx.1 hmem]
          rfl
        · by_cases hxin : k0 ∈ (refsIn x).map refLookupKey
          · simp only [processNode.goK]
            rw [hx.1 hxin]
            rfl
          · obtain ⟨y, hy, _⟩ := hx.2 hxin
            simp only [processNode.goK]
            rw [hy, hkw.1 hmem]
            rfl
      · intro hmem
        simp only [cellRefs.goP, List.map_append, List.mem_append] at hmem
        push_neg at hmem
        obtain ⟨y, hy, hyrefs⟩ := hx.2 hmem.1
        obtain ⟨kw', hkw', hkwrefs⟩ := hkw.2 hmem.2
        refine ⟨(t, y) :: kw', ?_, by simp [cellRefs.goP, hyrefs, hkwrefs]⟩
        simp only [processNode.goK]
        rw [hy, hkw']
        rfl

theorem except_bind_ok {E A B : Type} (a : A) (f : A → Except E B) :
    (Except.ok a >>= f : Except E B) = f a := rfl

theorem processNode_red (r : Graph) (k n f : Val) (a : List Val)
    (kw : List (String × Val)) (hget : xclGetItem r k = some (vcell n f a kw)) :
    processNode r k = (do
      let f' ← fromIdVal r f
      let a' ← processNode.goA r a
      let kw' ← processNode.goK r kw
      Except.ok (xclSetItem r k (vcell n f' a' kw'))) := by
  unfold processNode
  rw [hget]

theorem processNode_spec (r : Graph) (k0 : Val) (hk0 : k0 ∉ nodeKeys r)
    (hcn : cellNodes r = true) (k n f : Val) (a : List Val) (kw : List (String × Val))
    (hget : xclGetItem r k = some (vcell n f a kw))
    (hrefs : ∀ s ∈ cellRefs (vcell n f a kw),
      refLookupKey s = k0 ∨ refLookupKey s ∈ nodeKeys r) :
    (k0 ∈ (cellRefs (vcell n f a kw)).map refLookupKey →
      processNode r k = .error (.keyError k0)) ∧
    (k0 ∉ (cellRefs (vcell n f a kw)).map refLookupKey →
      ∃ f' a' kw', processNode r k = .ok (xclSetItem r k (vcell n f' a' kw')) ∧
        cellRefs (vcell n f' a' kw') = []) := by
  have hreff : ∀ s ∈ refsIn f, refLookupKey s = k0 ∨ refLookupKey s ∈ nodeKeys r :=
    fun s hs => hrefs s (by simp [cellRefs, hs])
  have hrefa : ∀ s ∈ refsIn.goL a, refLookupKey s = k0 ∨ refLookupKey s ∈ nodeKeys r :=
    fun s hs => hrefs s (by simp [cellRefs, refsIn_goL_eq, hs])
  have hrefkw : ∀ s ∈ cellRefs.goP kw, refLookupKey s = k0 ∨ refLookupKey s ∈ nodeKeys r :=
    fun s hs => hrefs s (by simp [cellRefs, hs])
  have hf := fromIdVal_spec r k0 hk0 hcn f hreff
  have ha := fromIdVal_spec.goSpec r k0 hk0 hcn a hrefa
  have hkw := goK_spec r k0 hk0 hcn kw hrefkw
  have hsplit : (cellRefs (vcell n f a kw)).map refLookupKey =
      (refsIn f).map refLookupKey ++ (refsIn.goL a).map refLookupKey ++
      (cellRefs.goP kw).map refLookupKey := by
    simp [cellRefs, refsIn_goL_eq]
  constructor
  · intro hmem
    rw [hsplit] at hmem
    simp only [List.mem_append] at hmem
    rw [processNode_red r k n f a kw hget]
    rcases hmem with (hmem | hmem) | hmem
    · rw [hf.1 hmem]
      rfl
    · by_cases hfin : k0 ∈ (refsIn f).map refLookupKey
      · rw [hf.1 hfin]
        rfl
      · obtain ⟨f', hf', _⟩ := hf.2 hfin
        rw [hf']
        simp only [except_bind_ok]
        rw [processNode_goA_eq, ha.1 hmem]
        rfl
    · by_cases hfin : k0 ∈ (refsIn f).map refLookupKey
      · rw [hf.1 hfin]
        rfl
      · obtain ⟨f', hf', _⟩ := hf.2 hfin
        rw [hf']
        simp only [except_bind_ok]
        by_cases hain : k0 ∈ (refsIn.goL a).map refLookupKey
        · rw [processNode_goA_eq, ha.1 hain]
          rfl
        · obtain ⟨a', ha', _⟩ := ha.2 hain
          rw [processNode_goA_eq, ha']
          simp only [except_bind_ok]
          rw [hkw.1 hmem]
          rfl
  · intro hmem
    rw [hsplit] at hmem
    simp only [List.mem_append] at hmem
    push_neg at hmem
    obtain ⟨f', hf', hfrefs⟩ := hf.2 hmem.1.1
    obtain ⟨a', ha', harefs⟩ := ha.2 hmem.1.2
    obtain ⟨kw', hkw', hkwrefs⟩ := hkw.2 hmem.2
    refine ⟨f', a', kw', ?_, ?_⟩
    · rw [processNode_red r k n f a kw hget]
      rw [hf']
      simp only [except_bind_ok]
      rw [processNode_goA_eq, ha']
      simp only [except_bind_ok]
      rw [hkw']
      rfl
    · simp [cellRefs, hfrefs, hkwrefs, refsIn_goL_eq, harefs]

end Mombai

namespace Mombai
open Val

theorem find?_of_mem_nodup :
    ∀ (l : List (Val × Attrs)), (l.map Prod.fst).Nodup → ∀ p ∈ l,
      l.find? (fun q => decide (q.1 = p.1)) = some p
  | [], _, p, hp => absurd hp (by simp)
  | q :: l, hnd, p, hp => by
      rcases List.mem_cons.mp hp with hpq | hpl
      · subst hpq
        rw [List.find?_cons_of_pos _ (by simp)]
      · have hne : ¬ q.1 = p.1 := by
          intro he
          rw [List.map_cons, List.nodup_cons] at hnd
          exact hnd.1 (he ▸ List.mem_map.mpr ⟨p, hpl, rfl⟩)
        rw [List.find?_cons_of_neg _ (by simpa using hne)]
        exact find?_of_mem_nodup l (by
          rw [List.map_cons, List.nodup_cons] at hnd
          exact hnd.2) p hpl

theorem lookupNode_of_mem_nodup (g : Graph) (hnd : (nodeKeys g).Nodup)
    (p : Val × Attrs) (hp : p ∈ g.nodes) : lookupNode g p.1 = some p.2 := by
  unfold lookupNode
  rw [find?_of_mem_nodup g.nodes hnd p hp]
  rfl

theorem fromIdLoop_missing (g0 : Graph) (k0 : Val) (hk0 : k0 ∉ nodeKeys g0) :
    ∀ (ks : List Val) (r : Graph),
      nodeKeys r = nodeKeys g0 →
      cellNodes r = true →
      (∀ p ∈ r.nodes, ∀ c : Val, p.2 = [("value", c)] →
        ∀ s ∈ cellRefs c, refLookupKey s = k0 ∨ refLookupKey s ∈ nodeKeys g0) →
      ks.Nodup →
      (∀ k ∈ ks, k ∈ nodeKeys g0 ∧ xkey k = k) →
      (∃ k ∈ ks, ∃ c, lookupNode r k = some [("value", c)] ∧
        k0 ∈ (cellRefs c).map refLookupKey) →
      fromIdLoop r ks = .error (.keyError k0)
  | [], r, _, _, _, _, _, hex => by
      obtain ⟨k, hk, _⟩ := hex
      cases hk
  | k :: rest, r, hkeys, hcn, hinv, hnd, hmem, hex => by
      have hk0r : k0 ∉ nodeKeys r := by rw [hkeys]; exact hk0
      obtain ⟨hkg, hxk⟩ := hmem k (by simp)
      have hkr : xkey k ∈ nodeKeys r := by rw [hxk, hkeys]; exact hkg
      obtain ⟨c, hget, hcell, hlk⟩ := xclGetItem_cellNodes r hcn k hkr
      have hrefs_c : ∀ s ∈ cellRefs c, refLookupKey s = k0 ∨ refLookupKey s ∈ nodeKeys r := by
        intro s hs
        rcases hinv (xkey k, [("value", c)]) (lookupNode_some_mem r (xkey k) _ hlk) c rfl s hs
          with h | h
        · exact Or.inl h
        · exact Or.inr (by rw [hkeys]; exact h)
      match c, hcell, hget, hlk, hrefs_c with
      | vcell n f a kw, _, hget, hlk, hrefs_c =>
        have hspec := processNode_spec r k0 hk0r hcn k n f a kw hget (by
          intro s hs
          rcases hrefs_c s hs with h | h
          · exact Or.inl h
          · exact Or.inr h)
        by_cases hin : k0 ∈ (cellRefs (vcell n f a kw)).map refLookupKey
        · have herr := hspec.1 hin
          unfold fromIdLoop
          rw [herr]
          rfl
        · obtain ⟨f', a', kw', hok, hfree⟩ := hspec.2 hin
          unfold fromIdLoop
          rw [hok]
          rw [except_bind_ok]
          set newc := vcell n f' a' kw' with hnewc
          have hset : xclSetItem r k newc = addNode r (xkey k) [("value", newc)] := by
            unfold xclSetItem
            have : isCellV newc = true := rfl
            rw [this]
            simp [asDict]
          rw [hset]
          set r' := addNode r (xkey k) [("value", newc)] with hr'
          have hkeys' : nodeKeys r' = nodeKeys r := by
            rw [hr', nodeKeys_addNode, if_pos hkr]
          obtain ⟨k1, hk1, c1, hc1, hc1mem⟩ := hex
          have hk1rest : k1 ∈ rest := by
            rcases List.mem_cons.mp hk1 with he | hr1
            · exfalso
              subst he
              rw [hxk] at hlk
              rw [hlk] at hc1
              cases hc1
              exact hin hc1mem
            · exact hr1
          have hknot : k ∉ rest := (List.nodup_cons.mp hnd).1
          apply fromIdLoop_missing g0 k0 hk0 rest r'
          · rw [hkeys', hkeys]
          · have : cellNodes (xclSetItem r k newc) = true := cellNodes_setItem r k newc hcn
            rw [hset] at this
            exact this
          · intro p hp c' hc' s hs
            rw [hr'] at hp
            unfold addNode at hp
            rw [if_pos (by simpa using hkr)] at hp
            simp only at hp
            obtain ⟨q, hq, hqe⟩ := List.mem_map.mp hp
            by_cases hqk : q.1 = xkey k
            · rw [if_pos hqk] at hqe
              obtain ⟨cq, hcq, _⟩ := cellNodes_mem r hcn q hq
              rw [← hqe] at hc'
              simp only [hcq] at hc'
              rw [mergeAttrs_single, setAttr_value_singleton] at hc'
              have : c' = newc := by
                injection hc' with h1 _
                injection h1 with _ h2
                exact h2.symm
              rw [this, hnewc] at hs
              rw [hfree] at hs
              cases hs
            · rw [if_neg hqk] at hqe
              exact hinv q hq c' (hqe ▸ hc') s hs
          · exact (List.nodup_cons.mp hnd).2
          · intro x hx
            exact hmem x (by simp [hx])
          · refine ⟨k1, hk1rest, c1, ?_, hc1mem⟩
            rw [hr', lookupNode_addNode_other r (xkey k) k1 _ (by
              rw [hxk]
              intro he
              exact hknot (he ▸ hk1rest))]
            exact hc1

end Mombai

namespace Mombai
open Val

/-- C7: in an id-referenced graph (every payload a cell, stored keys
normalized, with a well-defined topological order) in which some cell holds a
reference resolving to the absent key `k0` and every other reference resolves
to a present node, `from_id` fails with the `KeyError` naming `k0`, and so
does direct resolution of any reference string whose target is `k0`. -/
theorem c7_missing_reference (g : Graph) (ks : List Val) (k0 : Val)
    (hts : topoSort g = .ok ks)
    (hcn : cellNodes g = true)
    (hnd : (nodeKeys g).Nodup)
    (hnorm : ∀ k ∈ nodeKeys g, xkey k = k)
    (hrefs : ∀ p ∈ g.nodes, ∀ s ∈ cellRefs (asValue p.2),
      refLookupKey s = k0 ∨ refLookupKey s ∈ nodeKeys g)
    (hex : ∃ p ∈ g.nodes, k0 ∈ (cellRefs (asValue p.2)).map refLookupKey)
    (hmiss : k0 ∉ nodeKeys g) :
    fromId g = .error (.keyError k0) ∧
    (∀ s : String, isRefStr s = true → refLookupKey s = k0 →
      fromIdVal g (vstr s) = .error (.keyError k0)) := by
  constructor
  · obtain ⟨tail, hks, hperm⟩ := kahn_ok_shape g.edges _ _ _ _ hts
    rw [List.nil_append] at hks
    subst hks
    have hksnd : ks.Nodup := hperm.nodup_iff.mpr hnd
    unfold fromId
    rw [hts, except_bind_ok]
    have hdc : deepcopy g = g := rfl
    rw [hdc]
    apply fromIdLoop_missing g k0 hmiss ks g rfl hcn ?_ hksnd
    · intro k hk
      have hkg : k ∈ nodeKeys g := hperm.mem_iff.mp hk
      exact ⟨hkg, hnorm k hkg⟩
    · obtain ⟨p, hp, hcmem⟩ := hex
      obtain ⟨c, hc, _⟩ := cellNodes_mem g hcn p hp
      have hav : asValue p.2 = c := by rw [hc]; simp [asValue]
      refine ⟨p.1, hperm.mem_iff.mpr (List.mem_map.mpr ⟨p, hp, rfl⟩), c, ?_, ?_⟩
      · rw [lookupNode_of_mem_nodup g hnd p hp, hc]
      · rw [← hav]
        exact hcmem
    · intro p hp c hc s hs
      have hav : asValue p.2 = c := by rw [hc]; simp [asValue]
      exact hrefs p hp s (hav ▸ hs)
  · intro s hr hkey
    have hnone : lookupNode g (refLookupKey s) = none := by
      rw [lookupNode_eq_none_iff, hkey]
      exact hmiss
    simp only [fromIdVal, hr, if_true]
    have hkeq : (if isIntStr (strTail s) = true then vint (parseIntStr (strTail s))
        else vstr (strTail s)) = refKey s := rfl
    have hxg : xclGetItem g (refKey s) = none := by
      unfold xclGetItem
      unfold refLookupKey at hnone
      rw [hnone]
      rfl
    rw [hkeq, hxg]
    unfold refLookupKey at hkey
    rw [hkey]

/-- An id-form graph whose cell `c` holds the dangling reference
`'@missing'` next to a resolvable embedded cell. -/
def exG7 : Graph :=
  addCellX emptyGraph
    (vcell (vstr "c") (vfn .fadd) [vcell (vstr "a") (vint 1) [] [], vstr "@missing"] [])

theorem c7_witness :
    topoSort exG7 = .ok [vstr "c", vstr "a"] ∧
    fromId exG7 = .error (.keyError (vstr "missing")) ∧
    fromIdVal exG7 (vstr "@missing") = .error (.keyError (vstr "missing")) := by
  refine ⟨by decide, ?_⟩
  have h := c7_missing_reference exG7 [vstr "c", vstr "a"] (vstr "missing")
    (by decide) (by decide) (by decide) (by decide) (by decide) (by decide) (by decide)
  exact ⟨h.1, h.2 "@missing" (by decide) (by decide)⟩

end Mombai

namespace Mombai
open Val

/-
C1/C2: round-trip pipelines.  Well-formed graphs, the id-form image of a
graph, dependency edges, and the two pipelines under review.
-/

/-- The `node` attribute of a cell (any other value is returned unchanged;
well-formedness only ever applies this to cells). -/
def nodeOf : Val → Val
  | vcell n _ _ _ => n
  | v => v

/-- A plain node string: `_key` leaves it unchanged (not a reference), and
its `'@' + s` reference strips back to exactly `s` (not re-parsed as an
int). -/
def plainKeyStr (s : String) : Bool := !(isRefStr s) && !(isIntStr s)

/-- A plain string node. -/
def plainNodeV : Val → Bool
  | vstr s => plainKeyStr s
  | _ => false

/-- The cells reachable at the positions the graph code traverses: the value
itself, or elements nested inside arrays (`_per_cell`, `_to_id`, `_from_id`
and `add_parents` all walk arrays element-wise and do not look inside
mapping values). -/
def cellsIn : Val → List Val
  | c@(vcell _ _ _ _) => [c]
  | vlist xs => goL xs
  | _ => []
where
  goL : List Val → List Val
    | [] => []
    | x :: xs => cellsIn x ++ goL xs

/-- The direct cell dependencies of a payload cell: the cells reachable in
its function, its positional arguments and its keyword values. -/
def depCells : Val → List Val
  | vcell _ f a kw => cellsIn f ++ goA a ++ goK kw
  | _ => []
where
  goA : List Val → List Val
    | [] => []
    | x :: xs => cellsIn x ++ goA xs
  goK : List (String × Val) → List Val
    | [] => []
    | (_, x) :: xs => cellsIn x ++ goK xs

/-- Cleanliness of a payload position: no literal reference strings where
`_from_id` would resolve them (the value itself or inside arrays), and every
reachable cell has a plain string node, so that its `@node` reference strips
back to exactly its node key.  Mapping values are never rewritten by
`_to_id`/`_from_id` and need no condition. -/
def cleanVal : Val → Bool
  | vstr s => !(isRefStr s)
  | vlist xs => goL xs
  | vcell n _ _ _ => plainNodeV n
  | _ => true
where
  goL : List Val → Bool
    | [] => true
    | x :: xs => cleanVal x && goL xs

/-- Well-formedness of one stored node `p` of `g`: the payload is `{value:
c}` for a cell `c` stored at its own plain-string node, the positions of `c`
are clean, and every cell `c` directly depends on is itself stored,
identically, as the payload of its own node. -/
def wfNode (g : Graph) (p : Val × Attrs) : Bool :=
  match p.2 with
  | [(s, c)] =>
      match c with
      | vcell n f a kw =>
          decide (s = "value") && decide (p.1 = n) && plainNodeV n &&
          cleanVal f && a.all cleanVal && kw.all (fun q => cleanVal q.2) &&
          (depCells (vcell n f a kw)).all (fun x =>
            decide (lookupNode g (nodeOf x) = some [("value", x)]))
      | _ => false
  | _ => false

/-- Every stored edge is a dependency edge: it points from the node of a
cell the target's payload directly depends on, to the target. -/
def wfEdge (g : Graph) (e : (Val × Val) × Attrs) : Bool :=
  match lookupNode g e.1.2 with
  | some [(s, c)] => decide (s = "value") &&
      (depCells c).any (fun x => decide (nodeOf x = e.1.1))
  | _ => false

/-- A well-formed XCL graph: distinct node keys, every node well-formed and
every edge a dependency edge.  This captures the graphs the spec's round-trip
contracts are about — graphs built with `+` from cells over plain string
nodes (no literal `@` references or numeric-string nodes), possibly with
their dependency edges already added by `add_parents`. -/
def wf (g : Graph) : Bool :=
  decide ((nodeKeys g).Nodup) && g.nodes.all (wfNode g) && g.edges.all (wfEdge g)

/-- The id-form rewriting `to_id` applies to one payload cell. -/
def toIdCell : Val → Val
  | vcell n f a kw =>
      vcell n (toIdVal f) (a.map toIdVal) (kw.map (fun p => (p.1, toIdVal p.2)))
  | v => v

/-- The graph `to_id` produces on a graph of cell payloads: every payload
rewritten to id form, keys and edges untouched. -/
def idGraph (g : Graph) : Graph :=
  ⟨g.nodes.map (fun p => (p.1, [("value", toIdCell (asValue p.2))])), g.edges⟩

/-- All dependency edges of a node list, as `(parent node, child key)`
pairs, in the traversal order of `add_parents`. -/
def depEdges : List (Val × Attrs) → List (Val × Val)
  | [] => []
  | p :: ps => (depCells (asValue p.2)).map (fun x => (nodeOf x, p.1)) ++ depEdges ps

/-- Structural size of a value (the auto-generated `sizeOf` of the nested
inductive is not executable, so the measure is spelled out). -/
def vsize : Val → Nat
  | vint _ => 1
  | vstr _ => 1
  | vfn _ => 1
  | vlist xs => 1 + goL xs
  | vdict kvs => 1 + goP kvs
  | vcell n f a kw => 1 + vsize n + vsize f + goL a + goP kw
where
  goL : List Val → Nat
    | [] => 0
    | x :: xs => vsize x + goL xs
  goP : List (String × Val) → Nat
    | [] => 0
    | (_, x) :: xs => vsize x + goP xs

/-- The measure witnessing acyclicity of a well-formed graph: the size of
the payload cell stored at a key (a dependency's payload is a strict subterm
of its dependent's payload). -/
def muP (g : Graph) (k : Val) : Nat :=
  match lookupNode g k with
  | some [(_, c)] => vsize c
  | _ => 0

/-- The `add_parents()` + `from_id()` tail shared by the two round-trip
pipelines: `add_parents` mutates and returns its receiver, raising instead
when it fails, and `from_id` runs on the mutated graph. -/
def parentsThenFromId (i : Graph) : Except Err Graph :=
  match addParentsNone i with
  | (i1, none) => fromId i1
  | (_, some e) => .error e

/-- The C2 pipeline `g.to_id().add_parents().from_id()`. -/
def roundTrip (g : Graph) : Except Err Graph := do
  let i ← toId g
  parentsThenFromId i

/-- The C1 pipeline `XCL.from_json(g.to_json())`. -/
def jsonRoundTrip (g : Graph) : Except Err Graph := do
  let j ← toJson g
  fromJson j

/-- A graph of cells whose payload holds a literal reference to an absent
node: `XCL() + Cell('cz', '@zz')`. -/
def exGzz : Graph := addCellX emptyGraph (vcell (vstr "cz") (vstr "@zz") [] [])

/-- A graph of cells one of whose nodes is the numeric string `'7'`. -/
def exG1 : Graph :=
  addCellX emptyGraph (vcell (vstr "c1") (vfn .fadd)
    [vcell (vstr "7") (vint 1) [] [], vcell (vstr "b1") (vint 2) [] []] [])

/-- A well-formed graph of cells with nested cell dependencies:
`XCL() + Cell('w', operator.add, Cell('u', 1), Cell('v', 2))`. -/
def exG2 : Graph :=
  addCellX emptyGraph (vcell (vstr "w") (vfn .fadd)
    [vcell (vstr "u") (vint 1) [] [], vcell (vstr "v") (vint 2) [] []] [])

end Mombai

namespace Mombai
open Val

/-
Basic consequences of well-formedness.
-/

theorem wf_nodup (g : Graph) (h : wf g = true) : (nodeKeys g).Nodup := by
  unfold wf at h
  simp only [Bool.and_eq_true, decide_eq_true_eq] at h
  exact h.1.1

theorem plainNodeV_spec (n : Val) (h : plainNodeV n = true) :
    ∃ s, n = vstr s ∧ isRefStr s = false ∧ isIntStr s = false := by
  match n, h with
  | vstr s, h =>
      simp only [plainNodeV, plainKeyStr, Bool.and_eq_true, Bool.not_eq_true'] at h
      exact ⟨s, rfl, h.1, h.2⟩

theorem xkey_plain (n : Val) (h : plainNodeV n = true) : xkey n = n := by
  obtain ⟨s, rfl, hr, _⟩ := plainNodeV_spec n h
  simp [xkey, hr, Hash]

theorem string_eta (s : String) : String.mk s.data = s := by
  cases s
  rfl

theorem strTail_refOf (s : String) : strTail (refOf s) = s := string_eta s

theorem isRefStr_refOf (s : String) : isRefStr (refOf s) = true := rfl

theorem wf_node_spec (g : Graph) (h : wf g = true) (p : Val × Attrs) (hp : p ∈ g.nodes) :
    ∃ n f a kw, p.2 = [("value", vcell n f a kw)] ∧ p.1 = n ∧
      plainNodeV n = true ∧ cleanVal f = true ∧ (∀ x ∈ a, cleanVal x = true) ∧
      (∀ q ∈ kw, cleanVal q.2 = true) ∧
      (∀ x ∈ depCells (vcell n f a kw), lookupNode g (nodeOf x) = some [("value", x)]) := by
  unfold wf at h
  simp only [Bool.and_eq_true] at h
  have hall := List.all_eq_true.mp h.1.2 p hp
  match p, hall with
  | (k, [(s, vcell n f a kw)]), hh =>
      simp only [wfNode, Bool.and_eq_true, decide_eq_true_eq, List.all_eq_true] at hh
      obtain ⟨⟨⟨⟨⟨⟨hs, hk⟩, hpn⟩, hcf⟩, hca⟩, hckw⟩, hdep⟩ := hh
      refine ⟨n, f, a, kw, by rw [hs], hk, hpn, hcf, ?_, ?_, ?_⟩
      · intro x hx
        exact hca x hx
      · intro q hq
        exact hckw q hq
      · intro x hx
        exact hdep x hx
  | (k, [(s, vint i)]), hh => exact Bool.noConfusion hh
  | (k, [(s, vstr t)]), hh => exact Bool.noConfusion hh
  | (k, [(s, vfn fn)]), hh => exact Bool.noConfusion hh
  | (k, [(s, vlist xs)]), hh => exact Bool.noConfusion hh
  | (k, [(s, vdict d)]), hh => exact Bool.noConfusion hh

theorem wf_cellNodes (g : Graph) (h : wf g = true) : cellNodes g = true := by
  unfold cellNodes
  rw [List.all_eq_true]
  intro p hp
  obtain ⟨n, f, a, kw, hp2, _⟩ := wf_node_spec g h p hp
  rw [hp2]
  simp [isCellV]

theorem wf_keys_norm (g : Graph) (h : wf g = true) :
    ∀ k ∈ nodeKeys g, xkey k = k := by
  intro k hk
  obtain ⟨p, hp, hpk⟩ := List.mem_map.mp hk
  obtain ⟨n, f, a, kw, _, hk1, hpn, _⟩ := wf_node_spec g h p hp
  rw [← hpk, hk1]
  exact xkey_plain n hpn

theorem lookup_mem_keys (g : Graph) (k : Val) (a : Attrs)
    (h : lookupNode g k = some a) : k ∈ nodeKeys g := by
  by_contra hk
  rw [← lookupNode_eq_none_iff] at hk
  rw [h] at hk
  cases hk

theorem wf_edge_spec (g : Graph) (h : wf g = true) (uv : Val × Val)
    (huv : uv ∈ g.edges.map Prod.fst) :
    ∃ p ∈ g.nodes, uv.2 = p.1 ∧ ∃ x ∈ depCells (asValue p.2), nodeOf x = uv.1 := by
  unfold wf at h
  simp only [Bool.and_eq_true] at h
  obtain ⟨e, he, hef⟩ := List.mem_map.mp huv
  have hw := List.all_eq_true.mp h.2 e he
  unfold wfEdge at hw
  cases hl : lookupNode g e.1.2 with
  | none =>
      rw [hl] at hw
      cases hw
  | some attrs =>
      rw [hl] at hw
      match attrs, hl, hw with
      | [(s, c)], hl, hw =>
          simp only [Bool.and_eq_true, decide_eq_true_eq, List.any_eq_true,
            decide_eq_true_eq] at hw
          obtain ⟨hs, x, hx, hxe⟩ := hw
          subst hs
          refine ⟨(e.1.2, [("value", c)]), lookupNode_some_mem g _ _ hl, ?_, x, ?_, ?_⟩
          · rw [← hef]
          · simpa [asValue] using hx
          · rw [hxe, ← hef]

theorem mem_depEdges : ∀ (l : List (Val × Attrs)) (uv : Val × Val),
    uv ∈ depEdges l ↔ ∃ p ∈ l, ∃ x ∈ depCells (asValue p.2), uv = (nodeOf x, p.1)
  | [], uv => by simp [depEdges]
  | p :: ps, uv => by
      simp only [depEdges, List.mem_append, List.mem_map, mem_depEdges ps uv,
        List.mem_cons]
      constructor
      · rintro (⟨x, hx, he⟩ | ⟨q, hq, x, hx, he⟩)
        · exact ⟨p, Or.inl rfl, x, hx, he.symm⟩
        · exact ⟨q, Or.inr hq, x, hx, he⟩
      · rintro ⟨q, hq | hq, x, hx, he⟩
        · subst hq
          exact Or.inl ⟨x, hx, he.symm⟩
        · exact Or.inr ⟨q, hq, x, hx, he⟩

/-
Strict decrease of the payload-size measure along dependency edges.
-/

theorem vsize_cellsIn : ∀ (v : Val), ∀ x ∈ cellsIn v, vsize x ≤ vsize v
  | vcell n f a kw, x, hx => by
      simp only [cellsIn, List.mem_singleton] at hx
      rw [hx]
  | vlist xs, x, hx => by
      simp only [cellsIn] at hx
      have := goL xs x hx
      simp only [vsize]
      omega
  | vint _, x, hx => by simp [cellsIn] at hx
  | vstr _, x, hx => by simp [cellsIn] at hx
  | vfn _, x, hx => by simp [cellsIn] at hx
  | vdict _, x, hx => by simp [cellsIn] at hx
where
  goL : ∀ (xs : List Val), ∀ x ∈ cellsIn.goL xs, vsize x ≤ vsize.goL xs
    | [], x, hx => by cases hx
    | y :: ys, x, hx => by
        simp only [cellsIn.goL, List.mem_append] at hx
        simp only [vsize.goL]
        rcases hx with hx | hx
        · have := vsize_cellsIn y x hx
          omega
        · have := goL ys x hx
          omega

theorem vsize_depCells_goA : ∀ (a : List Val), ∀ x ∈ depCells.goA a, vsize x ≤ vsize.goL a
  | [], x, hx => by cases hx
  | y :: ys, x, hx => by
      simp only [depCells.goA, List.mem_append] at hx
      simp only [vsize.goL]
      rcases hx with hx | hx
      · have := vsize_cellsIn y x hx
        omega
      · have := vsize_depCells_goA ys x hx
        omega

theorem vsize_depCells_goK : ∀ (kw : List (String × Val)), ∀ x ∈ depCells.goK kw,
    vsize x ≤ vsize.goP kw
  | [], x, hx => by cases hx
  | (_, y) :: ys, x, hx => by
      simp only [depCells.goK, List.mem_append] at hx
      simp only [vsize.goP]
      rcases hx with hx | hx
      · have := vsize_cellsIn y x hx
        omega
      · have := vsize_depCells_goK ys x hx
        omega

theorem vsize_depCells (n f : Val) (a : List Val) (kw : List (String × Val)) :
    ∀ x ∈ depCells (vcell n f a kw), vsize x < vsize (vcell n f a kw) := by
  intro x hx
  simp only [depCells, List.mem_append] at hx
  simp only [vsize]
  rcases hx with (hx | hx) | hx
  · have := vsize_cellsIn f x hx
    omega
  · have := vsize_depCells_goA a x hx
    omega
  · have := vsize_depCells_goK kw x hx
    omega

theorem muP_strict (g : Graph) (hwf : wf g = true) (uv : Val × Val)
    (huv : uv ∈ g.edges.map Prod.fst ∨ uv ∈ depEdges g.nodes) :
    muP g uv.1 < muP g uv.2 := by
  have hform : ∃ p ∈ g.nodes, uv.2 = p.1 ∧ ∃ x ∈ depCells (asValue p.2), nodeOf x = uv.1 := by
    rcases huv with huv | huv
    · exact wf_edge_spec g hwf uv huv
    · obtain ⟨p, hp, x, hx, he⟩ := (mem_depEdges g.nodes uv).mp huv
      exact ⟨p, hp, by rw [he], x, hx, by rw [he]⟩
  obtain ⟨p, hp, h2, x, hx, h1⟩ := hform
  obtain ⟨n, f, a, kw, hp2, _, _, _, _, _, hdep⟩ := wf_node_spec g hwf p hp
  have hav : asValue p.2 = vcell n f a kw := by rw [hp2]; simp [asValue]
  rw [hav] at hx
  have hlk := hdep x hx
  have hmu1 : muP g uv.1 = vsize x := by
    unfold muP
    rw [← h1, hlk]
  have hmu2 : muP g uv.2 = vsize (vcell n f a kw) := by
    unfold muP
    rw [h2, lookupNode_of_mem_nodup g (wf_nodup g hwf) p hp, hp2]
  rw [hmu1, hmu2]
  exact vsize_depCells n f a kw x hx

end Mombai

namespace Mombai
open Val

/-
The action of `to_id` on a well-formed graph: every payload is rewritten to
its id form, in place, keys and edges untouched.
-/

theorem map_noop_of_ne (k : Val) (d : Attrs) :
    ∀ (l : List (Val × Attrs)), (∀ q ∈ l, q.1 ≠ k) →
      l.map (fun q => if q.1 = k then (q.1, mergeAttrs q.2 d) else q) = l
  | [], _ => rfl
  | q :: l, h => by
      simp only [List.map_cons]
      rw [if_neg (h q (by simp)), map_noop_of_ne k d l (fun r hr => h r (by simp [hr]))]

theorem map_update_split (k : Val) (d : Attrs) :
    ∀ (pre : List (Val × Attrs)) (b : Attrs) (rest : List (Val × Attrs)),
      (∀ q ∈ pre, q.1 ≠ k) → (∀ q ∈ rest, q.1 ≠ k) →
      ((pre ++ (k, b) :: rest).map
          (fun q => if q.1 = k then (q.1, mergeAttrs q.2 d) else q))
        = pre ++ (k, mergeAttrs b d) :: rest
  | [], b, rest, _, hrest => by
      simp only [List.nil_append, List.map_cons]
      rw [map_noop_of_ne k d rest hrest]
      simp
  | q :: pre, b, rest, hpre, hrest => by
      simp only [List.cons_append, List.map_cons]
      rw [if_neg (hpre q (by simp)),
        map_update_split k d pre b rest (fun r hr => hpre r (by simp [hr])) hrest]

theorem find?_keys_none (k : Val) (l : List (Val × Attrs)) (h : ∀ q ∈ l, q.1 ≠ k) :
    l.find? (fun q => decide (q.1 = k)) = none :=
  List.find?_eq_none.mpr (fun q hq => by simpa using h q hq)

theorem lookupNode_split (E : List ((Val × Val) × Attrs)) (pre rest : List (Val × Attrs))
    (k : Val) (b : Attrs) (hpre : ∀ q ∈ pre, q.1 ≠ k) :
    lookupNode ⟨pre ++ (k, b) :: rest, E⟩ k = some b := by
  unfold lookupNode
  rw [find?_append_of_none _ pre _ (find?_keys_none k pre hpre),
    List.find?_cons_of_pos _ (by simp)]
  rfl

theorem toIdStep_split (E : List ((Val × Val) × Attrs)) (pre rest : List (Val × Attrs))
    (k n f : Val) (a : List Val) (kw : List (String × Val)) (hxk : xkey k = k)
    (hpre : ∀ q ∈ pre, q.1 ≠ k) (hrest : ∀ q ∈ rest, q.1 ≠ k) :
    toIdStep ⟨pre ++ (k, [("value", vcell n f a kw)]) :: rest, E⟩ k =
      .ok ⟨pre ++ (k, [("value", toIdCell (vcell n f a kw))]) :: rest, E⟩ := by
  have hget : xclGetItem ⟨pre ++ (k, [("value", vcell n f a kw)]) :: rest, E⟩ k =
      some (vcell n f a kw) := by
    unfold xclGetItem
    rw [hxk, lookupNode_split E pre rest k _ hpre]
    simp [asValue]
  have hstep : toIdStep ⟨pre ++ (k, [("value", vcell n f a kw)]) :: rest, E⟩ k =
      .ok (xclSetItem ⟨pre ++ (k, [("value", vcell n f a kw)]) :: rest, E⟩ k
        (vcell n (toIdVal f) (a.map toIdVal) (kw.map (fun p => (p.1, toIdVal p.2))))) := by
    unfold toIdStep
    rw [hget]
  rw [hstep]
  have hmem : k ∈ nodeKeys ⟨pre ++ (k, [("value", vcell n f a kw)]) :: rest, E⟩ := by
    simp [nodeKeys]
  have hcont : (nodeKeys ⟨pre ++ (k, [("value", vcell n f a kw)]) :: rest, E⟩).contains k
      = true := by simpa using hmem
  have hcell : isCellV (vcell n (toIdVal f) (a.map toIdVal)
      (kw.map (fun p => (p.1, toIdVal p.2)))) = true := rfl
  simp only [xclSetItem, hcell, if_true, hxk, asDict]
  simp only [addNode, hcont, if_true]
  rw [map_update_split k _ pre _ rest hpre hrest]
  rw [mergeAttrs_single, setAttr_value_singleton]
  rfl

theorem toId_goK_split (E : List ((Val × Val) × Attrs)) :
    ∀ (post pre : List (Val × Attrs)),
      ((pre ++ post).map Prod.fst).Nodup →
      (∀ p ∈ post, (∃ n f a kw, p.2 = [("value", vcell n f a kw)]) ∧ xkey p.1 = p.1) →
      toId.goK ⟨pre ++ post, E⟩ (post.map Prod.fst) =
        .ok ⟨pre ++ post.map (fun p => (p.1, [("value", toIdCell (asValue p.2))])), E⟩
  | [], pre, _, _ => by simp [toId.goK]
  | p :: post, pre, hnd, hpost => by
      obtain ⟨⟨n, f, a, kw, hp2⟩, hxk⟩ := hpost p (by simp)
      have hpe : p = (p.1, [("value", vcell n f a kw)]) := by
        rw [← hp2]
      have hndk := hnd
      rw [List.map_append, List.map_cons, List.nodup_append] at hndk
      have hpre : ∀ q ∈ pre, q.1 ≠ p.1 := by
        intro q hq he
        exact hndk.2.2 (List.mem_map.mpr ⟨q, hq, rfl⟩) (by simp [he])
      have hrest : ∀ q ∈ post, q.1 ≠ p.1 := by
        intro q hq he
        exact (List.nodup_cons.mp hndk.2.1).1 (he ▸ List.mem_map.mpr ⟨q, hq, rfl⟩)
      simp only [List.map_cons, toId.goK]
      rw [show (⟨pre ++ p :: post, E⟩ : Graph) =
        ⟨pre ++ (p.1, [("value", vcell n f a kw)]) :: post, E⟩ from by rw [← hpe]]
      rw [toIdStep_split E pre post p.1 n f a kw hxk hpre hrest]
      rw [except_bind_ok]
      have hre : pre ++ (p.1, [("value", toIdCell (vcell n f a kw))]) :: post =
          (pre ++ [(p.1, [("value", toIdCell (vcell n f a kw))])]) ++ post := by
        simp
      rw [hre]
      rw [toId_goK_split E post (pre ++ [(p.1, [("value", toIdCell (vcell n f a kw))])])
        (by simpa using hnd)
        (fun q hq => hpost q (by simp [hq]))]
      have hav : asValue p.2 = vcell n f a kw := by
        rw [hp2]
        simp [asValue]
      rw [hav]
      simp

theorem toId_wf (g : Graph) (hwf : wf g = true) : toId g = .ok (idGraph g) := by
  unfold toId
  have h := toId_goK_split g.edges g.nodes []
    (by simpa using wf_nodup g hwf)
    (by
      intro p hp
      obtain ⟨n, f, a, kw, hp2, hk1, hpn, _⟩ := wf_node_spec g hwf p hp
      exact ⟨⟨n, f, a, kw, hp2⟩, by rw [hk1]; exact xkey_plain n hpn⟩)
  simp only [List.nil_append] at h
  have hg : (⟨g.nodes, g.edges⟩ : Graph) = g := rfl
  rw [hg] at h
  exact h

theorem nodeKeys_idGraph (g : Graph) : nodeKeys (idGraph g) = nodeKeys g := by
  simp [idGraph, nodeKeys]

theorem lookup_idGraph (g : Graph) (hnd : (nodeKeys g).Nodup) (p : Val × Attrs)
    (hp : p ∈ g.nodes) :
    lookupNode (idGraph g) p.1 = some [("value", toIdCell (asValue p.2))] := by
  have hmem : (p.1, [("value", toIdCell (asValue p.2))]) ∈ (idGraph g).nodes :=
    List.mem_map.mpr ⟨p, hp, rfl⟩
  have hnd' : (nodeKeys (idGraph g)).Nodup := by
    rw [nodeKeys_idGraph]
    exact hnd
  exact lookupNode_of_mem_nodup (idGraph g) hnd' _ hmem

end Mombai

namespace Mombai
open Val

/-
The action of `add_parents()` on an id-form graph: nodes untouched, and the
edge set grows by exactly the dependency edges.
-/

theorem xkey_cellArgs (n f : Val) (a : List Val) (kw : List (String × Val)) :
    xkey (vcell n f a kw) = xkey n := rfl

theorem xkey_ref_plain (s : String) (hi : isIntStr s = false) :
    xkey (vstr (refOf s)) = vstr s := by
  simp only [xkey, isRefStr_refOf, if_true, strTail_refOf, hi, Bool.false_eq_true,
    if_false, Hash]

theorem toIdVal_goL_eq : ∀ (xs : List Val), toIdVal.goL xs = xs.map toIdVal
  | [] => rfl
  | x :: xs => by
      simp only [toIdVal.goL, List.map_cons]
      rw [toIdVal_goL_eq xs]

theorem cleanVal_goL_iff : ∀ (xs : List Val),
    cleanVal.goL xs = true ↔ ∀ x ∈ xs, cleanVal x = true
  | [] => by simp [cleanVal.goL]
  | x :: xs => by
      simp only [cleanVal.goL, Bool.and_eq_true, cleanVal_goL_iff xs]
      constructor
      · rintro ⟨h1, h2⟩ y hy
        rcases List.mem_cons.mp hy with hy | hy
        · rw [hy]
          exact h1
        · exact h2 y hy
      · intro h
        exact ⟨h x (by simp), fun y hy => h y (by simp [hy])⟩

theorem depCells_goA_eq : ∀ (a : List Val), depCells.goA a = cellsIn.goL a
  | [] => rfl
  | x :: xs => by
      simp only [depCells.goA, cellsIn.goL]
      rw [depCells_goA_eq xs]

theorem depCells_goK_eq : ∀ (kw : List (String × Val)),
    depCells.goK kw = cellsIn.goL (kw.map Prod.snd)
  | [] => rfl
  | (s, x) :: xs => by
      simp only [depCells.goK, List.map_cons, cellsIn.goL]
      rw [depCells_goK_eq xs]

theorem addEdge_present (g : Graph) (u v : Val) (d : Attrs)
    (hu : u ∈ nodeKeys g) (hv : v ∈ nodeKeys g) :
    (addEdge g u v d).nodes = g.nodes ∧
    (∀ uv, uv ∈ (addEdge g u v d).edges.map Prod.fst ↔
      uv ∈ g.edges.map Prod.fst ∨ uv = (u, v)) := by
  have hcu : (nodeKeys g).contains u = true := by simpa using hu
  have hcv : (nodeKeys g).contains v = true := by simpa using hv
  unfold addEdge
  simp only [hcu, hcv, if_true]
  by_cases hc : (g.edges.map Prod.fst).contains (u, v)
  · rw [if_pos hc]
    have hfst : (g.edges.map
        (fun p => if p.1 = (u, v) then (p.1, mergeAttrs p.2 d) else p)).map Prod.fst
        = g.edges.map Prod.fst := by
      rw [List.map_map]
      apply List.map_congr_left
      intro e he
      by_cases h1 : e.1 = (u, v)
      · simp [h1]
      · simp [h1]
    refine ⟨rfl, ?_⟩
    intro uv
    simp only [hfst]
    constructor
    · exact Or.inl
    · rintro (h | h)
      · exact h
      · rw [h]
        simpa using hc
  · rw [if_neg hc]
    refine ⟨rfl, ?_⟩
    intro uv
    simp only [List.map_append, List.mem_append, List.map_cons, List.map_nil,
      List.mem_singleton]

theorem cellParentsP_noRef (i : Graph) (c' pv : Val)
    (h : (isCellV pv || isRefVal pv) = false) (hnl : ∀ ps, pv ≠ vlist ps) :
    cellParentsP i c' pv = i := by
  unfold cellParentsP
  rw [if_neg (by simp [h])]
  match pv, hnl with
  | vint m, _ => rfl
  | vstr s, _ => rfl
  | vfn fn, _ => rfl
  | vdict d, _ => rfl
  | vcell n f a kw, _ => rfl
  | vlist ps, hnl => exact absurd rfl (hnl ps)

theorem cellParentsP_clean (c' : Val) :
    ∀ (v : Val) (i : Graph), cleanVal v = true →
      (∀ x ∈ cellsIn v, nodeOf x ∈ nodeKeys i) →
      xkey c' ∈ nodeKeys i →
      (cellParentsP i c' (toIdVal v)).nodes = i.nodes ∧
      (∀ uv, uv ∈ (cellParentsP i c' (toIdVal v)).edges.map Prod.fst ↔
        uv ∈ i.edges.map Prod.fst ∨ uv ∈ (cellsIn v).map (fun x => (nodeOf x, xkey c')))
  | vint m, i, _, _, _ => by
      rw [cellParentsP_noRef i c' (toIdVal (vint m)) rfl (fun ps h => by cases h)]
      simp [cellsIn]
  | vfn fn, i, _, _, _ => by
      rw [cellParentsP_noRef i c' (toIdVal (vfn fn)) rfl (fun ps h => by cases h)]
      simp [cellsIn]
  | vdict d, i, _, _, _ => by
      rw [cellParentsP_noRef i c' (toIdVal (vdict d)) rfl (fun ps h => by cases h)]
      simp [cellsIn]
  | vstr s, i, hcl, _, _ => by
      have hs : isRefStr s = false := by
        simpa [cleanVal] using hcl
      have hno : (isCellV (toIdVal (vstr s)) || isRefVal (toIdVal (vstr s))) = false := by
        simp [toIdVal, isCellV, isRefVal, hs]
      rw [cellParentsP_noRef i c' (toIdVal (vstr s)) hno (fun ps h => by cases h)]
      simp [cellsIn]
  | vcell m f a kw, i, hcl, hmem, hck => by
      have hpn : plainNodeV m = true := by simpa [cleanVal] using hcl
      obtain ⟨s, hm, hr, hi⟩ := plainNodeV_spec m hpn
      have htid : toIdVal (vcell m f a kw) = vstr (refOf s) := by
        simp [toIdVal, hm, refTarget]
      have hcond : (isCellV (toIdVal (vcell m f a kw)) ||
          isRefVal (toIdVal (vcell m f a kw))) = true := by
        rw [htid]
        simp [isCellV, isRefVal, isRefStr_refOf]
      have hnode : nodeOf (vcell m f a kw) ∈ nodeKeys i := by
        apply hmem
        simp [cellsIn]
      unfold cellParentsP
      rw [if_pos hcond, htid]
      unfold xclSetEdge
      have hku : xkey (vstr (refOf s)) = vstr s := xkey_ref_plain s hi
      rw [hku]
      have hun : (vstr s) = nodeOf (vcell m f a kw) := by
        simp [nodeOf, hm]
      rw [hun]
      have had := addEdge_present i (nodeOf (vcell m f a kw)) (xkey c')
        (asDict (vdict [])) hnode hck
      refine ⟨had.1, ?_⟩
      intro uv
      rw [had.2 uv]
      simp [cellsIn]
  | vlist xs, i, hcl, hmem, hck => by
      have hgl : toIdVal (vlist xs) = vlist (toIdVal.goL xs) := rfl
      have hred : cellParentsP i c' (toIdVal (vlist xs)) =
          cellParentsP.goL c' i (toIdVal.goL xs) := by
        rw [hgl]
        unfold cellParentsP
        rw [if_neg (by simp [isCellV, isRefVal])]
      rw [hred]
      have h := goLspec c' xs i (by simpa [cleanVal] using hcl)
        (by
          intro x hx
          exact hmem x (by simpa [cellsIn] using hx)) hck
      refine ⟨h.1, ?_⟩
      intro uv
      rw [h.2 uv]
      simp [cellsIn]
where
  goLspec (c' : Val) : ∀ (xs : List Val) (i : Graph), cleanVal.goL xs = true →
      (∀ x ∈ cellsIn.goL xs, nodeOf x ∈ nodeKeys i) →
      xkey c' ∈ nodeKeys i →
      (cellParentsP.goL c' i (toIdVal.goL xs)).nodes = i.nodes ∧
      (∀ uv, uv ∈ (cellParentsP.goL c' i (toIdVal.goL xs)).edges.map Prod.fst ↔
        uv ∈ i.edges.map Prod.fst ∨
          uv ∈ (cellsIn.goL xs).map (fun x => (nodeOf x, xkey c')))
    | [], i, _, _, _ => by
        refine ⟨rfl, fun uv => ?_⟩
        simp [toIdVal.goL, cellParentsP.goL, cellsIn.goL]
    | x :: xs, i, hcl, hmem, hck => by
        simp only [cleanVal.goL, Bool.and_eq_true] at hcl
        simp only [toIdVal.goL, cellParentsP.goL]
        have hx := cellParentsP_clean c' x i hcl.1
          (fun y hy => hmem y (by simp [cellsIn.goL, hy])) hck
        have hkeys1 : nodeKeys (cellParentsP i c' (toIdVal x)) = nodeKeys i := by
          unfold nodeKeys
          rw [hx.1]
        have hxs := goLspec c' xs (cellParentsP i c' (toIdVal x)) hcl.2
          (fun y hy => by
            rw [hkeys1]
            exact hmem y (by simp [cellsIn.goL, hy]))
          (by rw [hkeys1]; exact hck)
        refine ⟨by rw [hxs.1, hx.1], ?_⟩
        intro uv
        rw [hxs.2 uv, hx.2 uv]
        simp only [cellsIn.goL, List.map_append, List.mem_append]
        tauto

end Mombai

namespace Mombai
open Val

theorem mem_depCells_f (n f : Val) (a : List Val) (kw : List (String × Val)) (x : Val)
    (hx : x ∈ cellsIn f) : x ∈ depCells (vcell n f a kw) := by
  simp only [depCells, List.mem_append]
  exact Or.inl (Or.inl hx)

theorem mem_depCells_a (n f : Val) (a : List Val) (kw : List (String × Val)) (x : Val)
    (hx : x ∈ cellsIn.goL a) : x ∈ depCells (vcell n f a kw) := by
  simp only [depCells, List.mem_append, depCells_goA_eq]
  exact Or.inl (Or.inr hx)

theorem mem_depCells_kw (n f : Val) (a : List Val) (kw : List (String × Val)) (x : Val)
    (hx : x ∈ cellsIn.goL (kw.map Prod.snd)) : x ∈ depCells (vcell n f a kw) := by
  simp only [depCells, List.mem_append, depCells_goK_eq]
  exact Or.inr hx

theorem cellParents_toIdCell (i : Graph) (n f : Val) (a : List Val)
    (kw : List (String × Val))
    (hpn : plainNodeV n = true) (hcf : cleanVal f = true)
    (hca : ∀ x ∈ a, cleanVal x = true) (hckw : ∀ q ∈ kw, cleanVal q.2 = true)
    (hdep : ∀ x ∈ depCells (vcell n f a kw), nodeOf x ∈ nodeKeys i)
    (hn : n ∈ nodeKeys i) :
    (cellParents i (toIdCell (vcell n f a kw)) none).nodes = i.nodes ∧
    (∀ uv, uv ∈ (cellParents i (toIdCell (vcell n f a kw)) none).edges.map Prod.fst ↔
      uv ∈ i.edges.map Prod.fst ∨
        uv ∈ (depCells (vcell n f a kw)).map (fun x => (nodeOf x, n))) := by
  have hkc : xkey (toIdCell (vcell n f a kw)) = n := by
    simp only [toIdCell]
    rw [xkey_cellArgs]
    exact xkey_plain n hpn
  have hva : vlist (a.map toIdVal) = toIdVal (vlist a) := by
    simp [toIdVal, toIdVal_goL_eq]
  have hvkw : vlist ((kw.map (fun p => (p.1, toIdVal p.2))).map Prod.snd) =
      toIdVal (vlist (kw.map Prod.snd)) := by
    simp [toIdVal, toIdVal_goL_eq, List.map_map]
  have hred : cellParents i (toIdCell (vcell n f a kw)) none =
      cellParentsP (cellParentsP (cellParentsP i (toIdCell (vcell n f a kw)) (toIdVal f))
          (toIdCell (vcell n f a kw)) (toIdVal (vlist a)))
        (toIdCell (vcell n f a kw)) (toIdVal (vlist (kw.map Prod.snd))) := by
    rw [← hva, ← hvkw]
    rfl
  rw [hred]
  have h1 := cellParentsP_clean (toIdCell (vcell n f a kw)) f i hcf
    (fun x hx => hdep x (mem_depCells_f n f a kw x hx))
    (by rw [hkc]; exact hn)
  have hkeys1 : nodeKeys (cellParentsP i (toIdCell (vcell n f a kw)) (toIdVal f)) =
      nodeKeys i := by
    unfold nodeKeys
    rw [h1.1]
  have h2 := cellParentsP_clean (toIdCell (vcell n f a kw)) (vlist a) _
    ((cleanVal_goL_iff a).mpr hca)
    (fun x hx => by
      rw [hkeys1]
      exact hdep x (mem_depCells_a n f a kw x hx))
    (by rw [hkeys1, hkc]; exact hn)
  have hkeys2 : nodeKeys (cellParentsP
      (cellParentsP i (toIdCell (vcell n f a kw)) (toIdVal f))
      (toIdCell (vcell n f a kw)) (toIdVal (vlist a))) =
      nodeKeys i := by
    unfold nodeKeys
    rw [h2.1, h1.1]
  have h3 := cellParentsP_clean (toIdCell (vcell n f a kw)) (vlist (kw.map Prod.snd)) _
    ((cleanVal_goL_iff (kw.map Prod.snd)).mpr (by
      intro x hx
      obtain ⟨q, hq, hqe⟩ := List.mem_map.mp hx
      rw [← hqe]
      exact hckw q hq))
    (fun x hx => by
      rw [hkeys2]
      exact hdep x (mem_depCells_kw n f a kw x hx))
    (by rw [hkeys2, hkc]; exact hn)
  refine ⟨by rw [h3.1, h2.1, h1.1], ?_⟩
  intro uv
  rw [h3.2 uv, h2.2 uv, h1.2 uv]
  simp only [hkc, depCells, List.map_append, List.mem_append, depCells_goA_eq,
    depCells_goK_eq, cellsIn]
  tauto

theorem addParentsC_cell (i : Graph) (n f : Val) (a : List Val)
    (kw : List (String × Val)) :
    addParentsC i (toIdCell (vcell n f a kw)) none =
      (cellParents i (toIdCell (vcell n f a kw)) none, none) := rfl

theorem collectPayloads_nodes (i : Graph) (hnd : (nodeKeys i).Nodup)
    (hnorm : ∀ k ∈ nodeKeys i, xkey k = k) :
    ∀ (l : List (Val × Attrs)), (∀ p ∈ l, p ∈ i.nodes) →
      collectPayloads i (l.map Prod.fst) = .ok (l.map (fun p => asValue p.2))
  | [], _ => rfl
  | p :: l, h => by
      have hget : xclGetItem i p.1 = some (asValue p.2) := by
        unfold xclGetItem
        rw [hnorm p.1 (List.mem_map.mpr ⟨p, h p (by simp), rfl⟩),
          lookupNode_of_mem_nodup i hnd p (h p (by simp))]
        rfl
      simp only [List.map_cons, collectPayloads]
      rw [hget, collectPayloads_nodes i hnd hnorm l (fun q hq => h q (by simp [hq]))]
      rfl

theorem goC_toIdCells (g : Graph) (hwf : wf g = true) :
    ∀ (l : List (Val × Attrs)) (i : Graph),
      (∀ p ∈ l, p ∈ g.nodes) →
      nodeKeys i = nodeKeys g →
      ∃ ifin, addParentsNone.goC i (l.map (fun p => toIdCell (asValue p.2))) =
          (ifin, none) ∧
        ifin.nodes = i.nodes ∧
        (∀ uv, uv ∈ ifin.edges.map Prod.fst ↔
          uv ∈ i.edges.map Prod.fst ∨ uv ∈ depEdges l)
  | [], i, _, _ => ⟨i, rfl, rfl, by simp [depEdges]⟩
  | p :: l, i, hl, hkeys => by
      obtain ⟨n, f, a, kw, hp2, hk1, hpn, hcf, hca, hckw, hdep⟩ :=
        wf_node_spec g hwf p (hl p (by simp))
      have hav : asValue p.2 = vcell n f a kw := by
        rw [hp2]
        simp [asValue]
      have hcp := cellParents_toIdCell i n f a kw hpn hcf hca hckw
        (fun x hx => by
          rw [hkeys]
          exact lookup_mem_keys g (nodeOf x) _ (hdep x hx))
        (by rw [hkeys, ← hk1]; exact List.mem_map.mpr ⟨p, hl p (by simp), rfl⟩)
      have hkeys1 : nodeKeys (cellParents i (toIdCell (vcell n f a kw)) none) =
          nodeKeys g := by
        unfold nodeKeys
        rw [hcp.1]
        exact hkeys
      obtain ⟨ifin, hgoc, hn2, hm2⟩ := goC_toIdCells g hwf l
        (cellParents i (toIdCell (vcell n f a kw)) none)
        (fun q hq => hl q (by simp [hq])) hkeys1
      refine ⟨ifin, ?_, by rw [hn2, hcp.1], ?_⟩
      · simp only [List.map_cons, addParentsNone.goC, hav]
        rw [addParentsC_cell i n f a kw]
        exact hgoc
      · intro uv
        rw [hm2 uv, hcp.2 uv]
        simp only [depEdges, List.mem_append, hav, hk1]
        tauto

theorem addParentsNone_idform (g : Graph) (hwf : wf g = true) (i : Graph)
    (hnodes : i.nodes = (idGraph g).nodes) :
    ∃ i1, addParentsNone i = (i1, none) ∧ i1.nodes = i.nodes ∧
      (∀ uv, uv ∈ i1.edges.map Prod.fst ↔
        uv ∈ i.edges.map Prod.fst ∨ uv ∈ depEdges g.nodes) := by
  have hkeys : nodeKeys i = nodeKeys g := by
    rw [show nodeKeys i = nodeKeys (idGraph g) from by unfold nodeKeys; rw [hnodes],
      nodeKeys_idGraph]
  have hnd : (nodeKeys i).Nodup := by
    rw [hkeys]
    exact wf_nodup g hwf
  have hnorm : ∀ k ∈ nodeKeys i, xkey k = k := by
    intro k hk
    rw [hkeys] at hk
    exact wf_keys_norm g hwf k hk
  have hmk : nodeKeys i = i.nodes.map Prod.fst := rfl
  have hcol := collectPayloads_nodes i hnd hnorm i.nodes (fun p hp => hp)
  have hpay : i.nodes.map (fun p => asValue p.2) =
      g.nodes.map (fun p => toIdCell (asValue p.2)) := by
    rw [hnodes]
    unfold idGraph
    simp only [List.map_map]
    apply List.map_congr_left
    intro p hp
    simp [asValue]
  obtain ⟨ifin, hgoc, hn2, hm2⟩ := goC_toIdCells g hwf g.nodes i (fun p hp => hp) hkeys
  refine ⟨ifin, ?_, hn2, hm2⟩
  unfold addParentsNone
  rw [hmk, hcol, hpay]
  exact hgoc

end Mombai

namespace Mombai
open Val

/-
The combined graph sorts topologically: every edge strictly decreases the
payload-size measure, so Kahn's algorithm succeeds, and the resulting order
places every dependency before its dependent.
-/

theorem cellNodes_nodes_eq (i j : Graph) (h : i.nodes = j.nodes) :
    cellNodes i = cellNodes j := by
  unfold cellNodes
  rw [h]

theorem cellNodes_idGraph (g : Graph) (hwf : wf g = true) :
    cellNodes (idGraph g) = true := by
  unfold cellNodes idGraph
  simp only [List.all_map, List.all_eq_true]
  intro p hp
  obtain ⟨n, f, a, kw, hp2, _⟩ := wf_node_spec g hwf p hp
  have hav : asValue p.2 = vcell n f a kw := by
    rw [hp2]
    simp [asValue]
  simp [Function.comp, hav, toIdCell, isCellV]

theorem depEdge_form (g : Graph) (hwf : wf g = true) (uv : Val × Val)
    (huv : uv ∈ g.edges.map Prod.fst ∨ uv ∈ depEdges g.nodes) :
    ∃ p ∈ g.nodes, uv.2 = p.1 ∧ ∃ x ∈ depCells (asValue p.2), nodeOf x = uv.1 := by
  rcases huv with huv | huv
  · exact wf_edge_spec g hwf uv huv
  · obtain ⟨p, hp, x, hx, he⟩ := (mem_depEdges g.nodes uv).mp huv
    exact ⟨p, hp, by rw [he], x, hx, by rw [he]⟩

theorem depEdge_endpoints (g : Graph) (hwf : wf g = true) (uv : Val × Val)
    (huv : uv ∈ g.edges.map Prod.fst ∨ uv ∈ depEdges g.nodes) :
    uv.1 ∈ nodeKeys g ∧ uv.2 ∈ nodeKeys g := by
  obtain ⟨p, hp, h2, x, hx, h1⟩ := depEdge_form g hwf uv huv
  obtain ⟨n, f, a, kw, hp2, _, _, _, _, _, hdep⟩ := wf_node_spec g hwf p hp
  have hav : asValue p.2 = vcell n f a kw := by
    rw [hp2]
    simp [asValue]
  rw [hav] at hx
  constructor
  · rw [← h1]
    exact lookup_mem_keys g (nodeOf x) _ (hdep x hx)
  · rw [h2]
    exact List.mem_map.mpr ⟨p, hp, rfl⟩

theorem topoSort_idform (g : Graph) (hwf : wf g = true) (i1 : Graph)
    (hkeys : nodeKeys i1 = nodeKeys g)
    (hsub : ∀ uv ∈ i1.edges.map Prod.fst,
      uv ∈ g.edges.map Prod.fst ∨ uv ∈ depEdges g.nodes) :
    ∃ ks, topoSort i1 = .ok ks ∧ ks.Perm (nodeKeys g) ∧
      (∀ v l1 l2, ks = l1 ++ v :: l2 →
        ∀ u, (u, v) ∈ i1.edges.map Prod.fst → u ∈ l1) := by
  have hEmu : ∀ uv ∈ i1.edges.map Prod.fst, muP g uv.1 < muP g uv.2 :=
    fun uv huv => muP_strict g hwf uv (hsub uv huv)
  obtain ⟨ks, hks⟩ := kahn_complete i1.edges (muP g) hEmu (nodeKeys i1).length
    (nodeKeys i1) [] (Nat.le_refl _)
  have hts : topoSort i1 = .ok ks := hks
  obtain ⟨tail, hshape, hperm⟩ := kahn_ok_shape i1.edges _ _ _ _ hks
  rw [List.nil_append] at hshape
  subst hshape
  have hpermg : ks.Perm (nodeKeys g) := by
    rw [← hkeys]
    exact hperm
  refine ⟨ks, hts, hpermg, ?_⟩
  intro v l1 l2 hdecomp u hedge
  have hnd : (nodeKeys i1).Nodup := by
    rw [hkeys]
    exact wf_nodup g hwf
  have hvrem : v ∈ nodeKeys i1 := by
    rw [← hperm.mem_iff]
    rw [hdecomp]
    simp
  have hurem : u ∈ nodeKeys i1 := by
    rw [hkeys]
    exact (depEdge_endpoints g hwf (u, v) (hsub (u, v) hedge)).1
  exact kahn_ok_order i1.edges _ _ _ ks hks hnd (by simp) v l1 l2 hdecomp hvrem u
    hedge hurem

end Mombai

namespace Mombai
open Val

/-
Evaluation congruence: a cell whose function, argument and keyword positions
evaluate pairwise identically evaluates identically.
-/

theorem argEval_go_congr : ∀ (xs ys : List Val),
    List.Forall₂ (fun x y => argEval x = argEval y) xs ys →
    argEval.go xs = argEval.go ys
  | [], [], _ => rfl
  | [], _ :: _, h => by cases h
  | _ :: _, [], h => by cases h
  | x :: xs, y :: ys, h => by
      obtain ⟨hxy, hrest⟩ := List.forall₂_cons.mp h
      simp only [argEval.go]
      rw [hxy, argEval_go_congr xs ys hrest]

theorem argEval_goP_congr : ∀ (xs ys : List (String × Val)),
    List.Forall₂ (fun p q => p.1 = q.1 ∧ argEval p.2 = argEval q.2) xs ys →
    argEval.goP xs = argEval.goP ys
  | [], [], _ => rfl
  | [], _ :: _, h => by cases h
  | _ :: _, [], h => by cases h
  | (s, x) :: xs, (t, y) :: ys, h => by
      obtain ⟨hh, hrest⟩ := List.forall₂_cons.mp h
      have hst : s = t := hh.1
      have hxy : argEval x = argEval y := hh.2
      simp only [argEval.goP]
      rw [hst, hxy, argEval_goP_congr xs ys hrest]

theorem argEval_cell_congr (n n' f f' : Val) (a a' : List Val)
    (kw kw' : List (String × Val))
    (hf : argEval f = argEval f')
    (ha : List.Forall₂ (fun x y => argEval x = argEval y) a a')
    (hkw : List.Forall₂ (fun p q => p.1 = q.1 ∧ argEval p.2 = argEval q.2) kw kw') :
    argEval (vcell n f a kw) = argEval (vcell n' f' a' kw') := by
  have hlen := List.Forall₂.length_eq ha
  have hlenk := List.Forall₂.length_eq hkw
  have hae : a.isEmpty = a'.isEmpty := by
    cases a with
    | nil =>
        cases a' with
        | nil => rfl
        | cons _ _ => simp at hlen
    | cons _ _ =>
        cases a' with
        | nil => simp at hlen
        | cons _ _ => rfl
  have hkwe : kw.isEmpty = kw'.isEmpty := by
    cases kw with
    | nil =>
        cases kw' with
        | nil => rfl
        | cons _ _ => simp at hlenk
    | cons _ _ =>
        cases kw' with
        | nil => simp at hlenk
        | cons _ _ => rfl
  simp only [argEval]
  rw [hf, argEval_go_congr a a' ha, argEval_goP_congr kw kw' hkw, hae, hkwe]

/-
Resolution of id-form positions: on a working graph whose processed payloads
evaluate like the original cells they replace, `_from_id` turns every clean
id-form position back into a value that evaluates like the original.
-/

theorem fromIdVal_clean (r : Graph) :
    ∀ (v : Val), cleanVal v = true →
      (∀ x ∈ cellsIn v, ∃ c', lookupNode r (nodeOf x) = some [("value", c')] ∧
        argEval c' = argEval x) →
      ∃ v', fromIdVal r (toIdVal v) = .ok v' ∧ argEval v' = argEval v
  | vint m, _, _ => ⟨vint m, rfl, rfl⟩
  | vfn fn, _, _ => ⟨vfn fn, rfl, rfl⟩
  | vdict d, _, _ => ⟨vdict d, rfl, rfl⟩
  | vstr s, hcl, _ => by
      have hs : isRefStr s = false := by simpa [cleanVal] using hcl
      refine ⟨vstr s, ?_, rfl⟩
      simp only [toIdVal, fromIdVal, hs, Bool.false_eq_true, if_false]
  | vcell m f a kw, hcl, hres => by
      have hpn : plainNodeV m = true := by simpa [cleanVal] using hcl
      obtain ⟨s, hms, hr, hi⟩ := plainNodeV_spec m hpn
      obtain ⟨c', hlk, heq⟩ := hres (vcell m f a kw) (by simp [cellsIn])
      have htid : toIdVal (vcell m f a kw) = vstr (refOf s) := by
        simp [toIdVal, hms, refTarget]
      have hxk : xkey (vstr s) = vstr s :=
        xkey_plain (vstr s) (by simp [plainNodeV, plainKeyStr, hr, hi])
      have hnode : nodeOf (vcell m f a kw) = vstr s := by
        simp [nodeOf, hms]
      have hget : xclGetItem r (vstr s) = some c' := by
        unfold xclGetItem
        rw [hxk]
        rw [hnode] at hlk
        rw [hlk]
        simp [asValue]
      refine ⟨c', ?_, by rw [heq]⟩
      rw [htid]
      simp only [fromIdVal, isRefStr_refOf, if_true, strTail_refOf, hi,
        Bool.false_eq_true, if_false, hget]
  | vlist xs, hcl, hres => by
      obtain ⟨ys, hys, hfa⟩ := goClean r xs (by simpa [cleanVal] using hcl)
        (fun x hx => hres x (by simpa [cellsIn] using hx))
      refine ⟨vlist ys, ?_, ?_⟩
      · have hgl : toIdVal (vlist xs) = vlist (toIdVal.goL xs) := rfl
        rw [hgl]
        simp only [fromIdVal]
        rw [hys]
        rfl
      · simp only [argEval]
        rw [argEval_go_congr xs ys hfa]
where
  goClean (r : Graph) : ∀ (xs : List Val), cleanVal.goL xs = true →
      (∀ x ∈ cellsIn.goL xs, ∃ c', lookupNode r (nodeOf x) = some [("value", c')] ∧
        argEval c' = argEval x) →
      ∃ ys, fromIdVal.goL r (toIdVal.goL xs) = .ok ys ∧
        List.Forall₂ (fun x y => argEval x = argEval y) xs ys
    | [], _, _ => ⟨[], rfl, List.Forall₂.nil⟩
    | x :: xs, hcl, hres => by
        simp only [cleanVal.goL, Bool.and_eq_true] at hcl
        obtain ⟨y, hy, hye⟩ := fromIdVal_clean r x hcl.1
          (fun z hz => hres z (by simp [cellsIn.goL, hz]))
        obtain ⟨ys, hys, hfa⟩ := goClean r xs hcl.2
          (fun z hz => hres z (by simp [cellsIn.goL, hz]))
        refine ⟨y :: ys, ?_, List.Forall₂.cons (by rw [hye]) hfa⟩
        simp only [toIdVal.goL, fromIdVal.goL]
        rw [hy, hys]
        rfl

theorem goK_clean (r : Graph) : ∀ (kw : List (String × Val)),
    (∀ q ∈ kw, cleanVal q.2 = true) →
    (∀ x ∈ cellsIn.goL (kw.map Prod.snd), ∃ c',
      lookupNode r (nodeOf x) = some [("value", c')] ∧ argEval c' = argEval x) →
    ∃ kw', processNode.goK r (kw.map (fun p => (p.1, toIdVal p.2))) = .ok kw' ∧
      List.Forall₂ (fun p q => p.1 = q.1 ∧ argEval p.2 = argEval q.2) kw kw'
  | [], _, _ => ⟨[], rfl, List.Forall₂.nil⟩
  | (s, x) :: kw, hcl, hres => by
      obtain ⟨y, hy, hye⟩ := fromIdVal_clean r x (hcl (s, x) (by simp))
        (fun z hz => hres z (by simp [cellsIn.goL, hz]))
      obtain ⟨kw', hkw', hfa⟩ := goK_clean r kw (fun q hq => hcl q (by simp [hq]))
        (fun z hz => hres z (by simp [cellsIn.goL, hz]))
      refine ⟨(s, y) :: kw', ?_, List.Forall₂.cons ⟨rfl, by rw [hye]⟩ hfa⟩
      simp only [List.map_cons, processNode.goK]
      rw [hy, hkw']
      rfl

end Mombai

namespace Mombai
open Val

/-
The `from_id` node loop on a well-formed graph's id form: processed in a
dependency-respecting order, every node's payload is rewritten to a cell that
evaluates exactly like the original payload.
-/

theorem fromIdLoop_wf (g : Graph) (hwf : wf g = true) (ks : List Val)
    (hnd : ks.Nodup)
    (hmemg : ∀ u ∈ ks, u ∈ nodeKeys g)
    (horder : ∀ v l1 l2, ks = l1 ++ v :: l2 → ∀ u, (u, v) ∈ depEdges g.nodes → u ∈ l1) :
    ∀ (todo done : List Val) (r : Graph), ks = done ++ todo →
      nodeKeys r = nodeKeys g →
      (∀ u ∈ done, ∃ cu c', lookupNode g u = some [("value", cu)] ∧
        lookupNode r u = some [("value", c')] ∧ argEval c' = argEval cu) →
      (∀ u, u ∉ done → ∀ au, lookupNode g u = some au →
        lookupNode r u = some [("value", toIdCell (asValue au))]) →
      ∃ h2, fromIdLoop r todo = .ok h2 ∧ nodeKeys h2 = nodeKeys g ∧
        (∀ u ∈ ks, ∃ cu c', lookupNode g u = some [("value", cu)] ∧
          lookupNode h2 u = some [("value", c')] ∧ argEval c' = argEval cu)
  | [], done, r, hsplit, hkeys, hdone, _ => by
      refine ⟨r, rfl, hkeys, ?_⟩
      intro u hu
      apply hdone
      rw [hsplit] at hu
      simpa using hu
  | k :: rest, done, r, hsplit, hkeys, hdone, hpend => by
      have hkks : k ∈ ks := by
        rw [hsplit]
        simp
      have hkg : k ∈ nodeKeys g := hmemg k hkks
      obtain ⟨p, hp, hpk⟩ := List.mem_map.mp hkg
      obtain ⟨n, f, a, kw, hp2, hk1, hpn, hcf, hca, hckw, hdep⟩ := wf_node_spec g hwf p hp
      have hgnd := wf_nodup g hwf
      have hglk : lookupNode g k = some [("value", vcell n f a kw)] := by
        rw [← hpk, lookupNode_of_mem_nodup g hgnd p hp, hp2]
      have hksnd := hnd
      rw [hsplit, List.nodup_append] at hksnd
      have hkdone : k ∉ done := fun hkd => hksnd.2.2 hkd (by simp)
      have hrlk : lookupNode r k = some [("value", toIdCell (vcell n f a kw))] := by
        have h0 := hpend k hkdone [("value", vcell n f a kw)] hglk
        simpa [asValue] using h0
      have hxk : xkey k = k := by
        rw [← hpk, hk1]
        exact xkey_plain n hpn
      have hget : xclGetItem r k = some (vcell n (toIdVal f) (a.map toIdVal)
          (kw.map (fun p => (p.1, toIdVal p.2)))) := by
        unfold xclGetItem
        rw [hxk, hrlk]
        simp [asValue, toIdCell]
      have hresolve : ∀ x ∈ depCells (vcell n f a kw), ∃ c',
          lookupNode r (nodeOf x) = some [("value", c')] ∧ argEval c' = argEval x := by
        intro x hx
        have hlkx := hdep x hx
        have hxdone : nodeOf x ∈ done := by
          apply horder k done rest hsplit (nodeOf x)
          apply (mem_depEdges g.nodes (nodeOf x, k)).mpr
          refine ⟨p, hp, x, ?_, ?_⟩
          · rw [show asValue p.2 = vcell n f a kw from by rw [hp2]; simp [asValue]]
            exact hx
          · rw [hpk]
        obtain ⟨cu, c', hgu, hru, heq⟩ := hdone (nodeOf x) hxdone
        have hcu : x = cu := by
          have h0 := hlkx.symm.trans hgu
          simpa using h0
        exact ⟨c', hru, by rw [heq, ← hcu]⟩
      obtain ⟨f'', hf'', hfe⟩ := fromIdVal_clean r f hcf
        (fun x hx => hresolve x (mem_depCells_f n f a kw x hx))
      obtain ⟨a'', ha'', hafa⟩ := fromIdVal_clean.goClean r a ((cleanVal_goL_iff a).mpr hca)
        (fun z hz => hresolve z (mem_depCells_a n f a kw z hz))
      obtain ⟨kw'', hkw'', hkwfa⟩ := goK_clean r kw hckw
        (fun z hz => hresolve z (mem_depCells_kw n f a kw z hz))
      have hpn2 := processNode_red r k n (toIdVal f) (a.map toIdVal)
        (kw.map (fun p => (p.1, toIdVal p.2))) hget
      have hgoA : processNode.goA r (a.map toIdVal) = .ok a'' := by
        rw [processNode_goA_eq, ← toIdVal_goL_eq]
        exact ha''
      have hproc : processNode r k = .ok (xclSetItem r k (vcell n f'' a'' kw'')) := by
        rw [hpn2, hf'', except_bind_ok, hgoA, except_bind_ok, hkw'', except_bind_ok]
      have hset : xclSetItem r k (vcell n f'' a'' kw'') =
          addNode r k [("value", vcell n f'' a'' kw'')] := by
        unfold xclSetItem
        have hcv : isCellV (vcell n f'' a'' kw'') = true := rfl
        rw [hcv]
        simp [asDict, hxk]
      have hkr : k ∈ nodeKeys r := by
        rw [hkeys]
        exact hkg
      have hkeys' : nodeKeys (addNode r k [("value", vcell n f'' a'' kw'')]) =
          nodeKeys g := by
        rw [nodeKeys_addNode, if_pos hkr]
        exact hkeys
      have hlk'k : lookupNode (addNode r k [("value", vcell n f'' a'' kw'')]) k =
          some [("value", vcell n f'' a'' kw'')] := by
        rw [lookupNode_addNode_existing r k _ _ hrlk, mergeAttrs_single,
          setAttr_value_singleton]
      have hlk'other : ∀ u, u ≠ k →
          lookupNode (addNode r k [("value", vcell n f'' a'' kw'')]) u = lookupNode r u :=
        fun u hu => lookupNode_addNode_other r k u _ hu
      have heval : argEval (vcell n f'' a'' kw'') = argEval (vcell n f a kw) :=
        (argEval_cell_congr n n f f'' a a'' kw kw'' hfe.symm hafa hkwfa).symm
      obtain ⟨h2, hloop, hk2, hprop⟩ := fromIdLoop_wf g hwf ks hnd hmemg horder rest
        (done ++ [k]) (addNode r k [("value", vcell n f'' a'' kw'')])
        (by rw [hsplit]; simp)
        hkeys'
        (by
          intro u hu
          rcases List.mem_append.mp hu with hud | huk
          · obtain ⟨cu, c', h1, h2, h3⟩ := hdone u hud
            have hune : u ≠ k := fun he => hkdone (he ▸ hud)
            exact ⟨cu, c', h1, by rw [hlk'other u hune]; exact h2, h3⟩
          · have huk' : u = k := by simpa using huk
            subst huk'
            exact ⟨vcell n f a kw, vcell n f'' a'' kw'', hglk, hlk'k, heval⟩)
        (by
          intro u hu au hau
          have hud : u ∉ done := fun h => hu (by simp [h])
          have hune : u ≠ k := fun he => hu (by simp [he])
          rw [hlk'other u hune]
          exact hpend u hud au hau)
      refine ⟨h2, ?_, hk2, hprop⟩
      unfold fromIdLoop
      rw [hproc, except_bind_ok, hset]
      exact hloop

end Mombai

namespace Mombai
open Val

/-
The shared `add_parents()` + `from_id()` pipeline stage on any id-form image
of a well-formed graph, and the per-key evaluation transfer to `__getitem__`.
-/

theorem parentsFromId_wf (g : Graph) (hwf : wf g = true) (i : Graph)
    (hn : i.nodes = (idGraph g).nodes)
    (hE : ∀ uv ∈ i.edges.map Prod.fst, uv ∈ g.edges.map Prod.fst) :
    ∃ h2, parentsThenFromId i = .ok h2 ∧ nodeKeys h2 = nodeKeys g ∧
      ∀ p ∈ g.nodes, ∃ c', lookupNode h2 p.1 = some [("value", c')] ∧
        argEval c' = argEval (asValue p.2) := by
  obtain ⟨i1, hap, hn1, hm1⟩ := addParentsNone_idform g hwf i hn
  have hn1' : i1.nodes = (idGraph g).nodes := by
    rw [hn1, hn]
  have hkeys1 : nodeKeys i1 = nodeKeys g := by
    rw [show nodeKeys i1 = nodeKeys (idGraph g) from by unfold nodeKeys; rw [hn1'],
      nodeKeys_idGraph]
  have hsub : ∀ uv ∈ i1.edges.map Prod.fst,
      uv ∈ g.edges.map Prod.fst ∨ uv ∈ depEdges g.nodes := by
    intro uv huv
    rcases (hm1 uv).mp huv with h | h
    · exact Or.inl (hE uv h)
    · exact Or.inr h
  obtain ⟨ks, hts, hperm, horder0⟩ := topoSort_idform g hwf i1 hkeys1 hsub
  have horder : ∀ v l1 l2, ks = l1 ++ v :: l2 →
      ∀ u, (u, v) ∈ depEdges g.nodes → u ∈ l1 := by
    intro v l1 l2 hdec u hdep
    exact horder0 v l1 l2 hdec u ((hm1 (u, v)).mpr (Or.inr hdep))
  have hinit : ∀ u, u ∉ ([] : List Val) → ∀ au, lookupNode g u = some au →
      lookupNode i1 u = some [("value", toIdCell (asValue au))] := by
    intro u _ au hau
    have hpmem : (u, au) ∈ g.nodes := lookupNode_some_mem g u au hau
    have hlkid := lookup_idGraph g (wf_nodup g hwf) (u, au) hpmem
    rw [show lookupNode i1 u = lookupNode (idGraph g) u from by
      unfold lookupNode; rw [hn1']]
    exact hlkid
  obtain ⟨h2, hloop, hk2, hprop⟩ := fromIdLoop_wf g hwf ks
    ((hperm.nodup_iff).mpr (wf_nodup g hwf))
    (fun u hu => hperm.mem_iff.mp hu)
    horder ks [] i1 (by simp) hkeys1 (by simp) hinit
  refine ⟨h2, ?_, hk2, ?_⟩
  · unfold parentsThenFromId
    rw [hap]
    show fromId i1 = .ok h2
    unfold fromId
    rw [hts, except_bind_ok]
    exact hloop
  · intro p hp
    have hpks : p.1 ∈ ks := hperm.mem_iff.mpr (List.mem_map.mpr ⟨p, hp, rfl⟩)
    obtain ⟨cu, c', hg1, h21, he⟩ := hprop p.1 hpks
    have hpl := lookupNode_of_mem_nodup g (wf_nodup g hwf) p hp
    have hp2 : p.2 = [("value", cu)] := by
      have h0 := hpl.symm.trans hg1
      simpa using h0
    refine ⟨c', h21, ?_⟩
    rw [he, hp2]
    simp [asValue]

theorem eval_preserved_getItem (g h2 : Graph)
    (hprop : ∀ p ∈ g.nodes, ∃ c', lookupNode h2 p.1 = some [("value", c')] ∧
      argEval c' = argEval (asValue p.2)) :
    ∀ k c, xclGetItem g k = some c →
      ∃ c', xclGetItem h2 k = some c' ∧ evalCell c' = evalCell c := by
  intro k c hget
  unfold xclGetItem at hget
  rw [Option.map_eq_some'] at hget
  obtain ⟨attrs, hlk, hac⟩ := hget
  obtain ⟨c', hlk2, he⟩ := hprop (xkey k, attrs) (lookupNode_some_mem g (xkey k) attrs hlk)
  have hlk2' : lookupNode h2 (xkey k) = some [("value", c')] := hlk2
  have he' : argEval c' = argEval (asValue attrs) := he
  refine ⟨c', ?_, ?_⟩
  · unfold xclGetItem
    rw [hlk2']
    simp [asValue]
  · unfold evalCell
    rw [he', hac]

end Mombai

namespace Mombai
open Val

/-
C2: the to_id / add_parents / from_id round trip.
-/

/-- C2 (amended): on every well-formed XCL graph of cells — distinct plain
string node keys, `{value: cell}` payloads stored at their own nodes, no
literal `@` reference strings in payload positions, every embedded dependency
cell also stored identically at its own node, and edges (if any) a subset of
the dependency edges — the pipeline `g.to_id().add_parents().from_id()`
succeeds and produces a graph with the same node keys in which every node's
payload cell evaluates exactly as the corresponding original cell: for every
key `k`, `g2[k]() == g[k]()`. -/
theorem c2_roundtrip_eval (g : Graph) (hwf : wf g = true) :
    ∃ h2, roundTrip g = .ok h2 ∧ nodeKeys h2 = nodeKeys g ∧
      ∀ k c, xclGetItem g k = some c →
        ∃ c', xclGetItem h2 k = some c' ∧ evalCell c' = evalCell c := by
  obtain ⟨h2, hrun, hk2, hprop⟩ := parentsFromId_wf g hwf (idGraph g) rfl
    (by
      intro uv huv
      exact huv)
  refine ⟨h2, ?_, hk2, eval_preserved_getItem g h2 hprop⟩
  unfold roundTrip
  rw [toId_wf g hwf, except_bind_ok]
  exact hrun

/-- C2 counterexample: the claim as stated quantifies over every acyclic XCL
graph of cells, but on `XCL() + Cell('cz', '@zz')` — whose single cell holds
the literal reference string `'@zz'` to a node that does not exist, and which
evaluates fine in the original graph (`g['cz']() == '@zz'`) — the pipeline
`g.to_id().add_parents().from_id()` fails: `add_parents` silently creates the
phantom endpoint node `zz` with an empty attribute dict, and `from_id` then
raises an `AttributeError` when it treats that empty payload as a cell. -/
theorem c2_counterexample :
    xclGetItem exGzz (vstr "cz") = some (vcell (vstr "cz") (vstr "@zz") [] []) ∧
    evalCell (vcell (vstr "cz") (vstr "@zz") [] []) = some (vstr "@zz") ∧
    roundTrip exGzz = .error .notACell := by
  refine ⟨by decide, by decide, by decide⟩

/-- C2 witness: the amended round-trip theorem applied to the concrete
well-formed graph `XCL() + Cell('w', operator.add, Cell('u', 1), Cell('v',
2))`. -/
theorem c2_witness :
    wf exG2 = true ∧
    (∃ h2, roundTrip exG2 = .ok h2 ∧ nodeKeys h2 = nodeKeys exG2 ∧
      ∀ k c, xclGetItem exG2 k = some c →
        ∃ c', xclGetItem h2 k = some c' ∧ evalCell c' = evalCell c) :=
  ⟨by decide, c2_roundtrip_eval exG2 (by decide)⟩

end Mombai

namespace Mombai
open Val

/-
C1: the to_json / from_json round trip.  On a well-formed graph the json
node map is the id-form payload map under stringified keys, and from_json's
re-keying is the identity on plain string keys, so the reload reduces to the
add_parents/from_id pipeline on the id-form node set with no edges.
-/

theorem collectJson_nodes (i : Graph) (hnd : (nodeKeys i).Nodup)
    (hnorm : ∀ k ∈ nodeKeys i, xkey k = k) :
    ∀ (l : List (Val × Attrs)), (∀ p ∈ l, p ∈ i.nodes) →
      collectJson i (l.map Prod.fst) = .ok (l.map (fun p => (jsonKeyStr p.1, asValue p.2)))
  | [], _ => rfl
  | p :: l, h => by
      have hget : xclGetItem i p.1 = some (asValue p.2) := by
        unfold xclGetItem
        rw [hnorm p.1 (List.mem_map.mpr ⟨p, h p (by simp), rfl⟩),
          lookupNode_of_mem_nodup i hnd p (h p (by simp))]
        rfl
      simp only [List.map_cons, collectJson]
      rw [hget, collectJson_nodes i hnd hnorm l (fun q hq => h q (by simp [hq]))]
      rfl

theorem toJson_wf (g : Graph) (hwf : wf g = true) :
    toJson g = .ok (g.nodes.map (fun p => (jsonKeyStr p.1, toIdCell (asValue p.2)))) := by
  unfold toJson
  rw [toId_wf g hwf, except_bind_ok]
  have hnd : (nodeKeys (idGraph g)).Nodup := by
    rw [nodeKeys_idGraph]
    exact wf_nodup g hwf
  have hnorm : ∀ k ∈ nodeKeys (idGraph g), xkey k = k := by
    intro k hk
    rw [nodeKeys_idGraph] at hk
    exact wf_keys_norm g hwf k hk
  have hmk : nodeKeys (idGraph g) = (idGraph g).nodes.map Prod.fst := rfl
  rw [hmk, collectJson_nodes (idGraph g) hnd hnorm (idGraph g).nodes (fun p hp => hp)]
  unfold idGraph
  simp only [List.map_map]
  refine congrArg Except.ok ?_
  apply List.map_congr_left
  intro p hp
  simp [Function.comp, asValue]

theorem addNode_fresh_eq (g : Graph) (k : Val) (d : Attrs) (hk : k ∉ nodeKeys g) :
    addNode g k d = ⟨g.nodes ++ [(k, d)], g.edges⟩ := by
  unfold addNode
  rw [if_neg (by simpa using hk)]

theorem foldl_setItem_cells :
    ∀ (l : List (Val × Val)) (gacc : Graph),
      (∀ kv ∈ l, isCellV kv.2 = true ∧ xkey kv.1 = kv.1) →
      (∀ kv ∈ l, kv.1 ∉ nodeKeys gacc) →
      (l.map Prod.fst).Nodup →
      l.foldl (fun g kv => xclSetItem g kv.1 kv.2) gacc =
        ⟨gacc.nodes ++ l.map (fun kv => (kv.1, [("value", kv.2)])), gacc.edges⟩
  | [], gacc, _, _, _ => by simp
  | (k, v) :: l, gacc, hc, hf, hnd => by
      obtain ⟨hcell, hxk⟩ := hc (k, v) (by simp)
      have hd : asDict v = [("value", v)] := by
        cases v <;> simp [isCellV] at hcell <;> simp [asDict]
      have hset : xclSetItem gacc k v = ⟨gacc.nodes ++ [(k, [("value", v)])], gacc.edges⟩ := by
        simp only [xclSetItem, hcell, if_true]
        rw [show xkey k = k from hxk, hd]
        exact addNode_fresh_eq gacc k _ (hf (k, v) (by simp))
      have hnd' : (k :: l.map Prod.fst).Nodup := hnd
      simp only [List.foldl_cons]
      rw [hset]
      rw [foldl_setItem_cells l ⟨gacc.nodes ++ [(k, [("value", v)])], gacc.edges⟩
        (fun kv hkv => hc kv (by simp [hkv]))
        (by
          intro kv hkv
          have hne : kv.1 ≠ k := by
            intro he
            exact (List.nodup_cons.mp hnd').1 (List.mem_map.mpr ⟨kv, hkv, he⟩)
          have hng : kv.1 ∉ nodeKeys gacc := hf kv (by simp [hkv])
          simp only [nodeKeys, List.map_append, List.mem_append]
          rintro (h | h)
          · exact hng h
          · simp at h
            exact hne h)
        ((List.nodup_cons.mp hnd').2)]
      simp

theorem fromJsonNodes_wf (g : Graph) (hwf : wf g = true) :
    fromJsonNodes (g.nodes.map (fun p => (jsonKeyStr p.1, toIdCell (asValue p.2)))) =
      ⟨(idGraph g).nodes, []⟩ := by
  unfold fromJsonNodes
  have hmin : (g.nodes.map (fun p => (jsonKeyStr p.1, toIdCell (asValue p.2)))).map
      (fun p => ((if isIntStr p.1 then vint (parseIntStr p.1) else vstr p.1), p.2)) =
      g.nodes.map (fun p => (p.1, toIdCell (asValue p.2))) := by
    rw [List.map_map]
    apply List.map_congr_left
    intro p hp
    obtain ⟨n, f, a, kw, hp2, hk1, hpn, _⟩ := wf_node_spec g hwf p hp
    obtain ⟨s, hns, hr, hi⟩ := plainNodeV_spec n hpn
    simp [Function.comp, hk1, hns, jsonKeyStr, hi]
  rw [hmin]
  rw [foldl_setItem_cells (g.nodes.map (fun p => (p.1, toIdCell (asValue p.2)))) emptyGraph
    (by
      intro kv hkv
      obtain ⟨p, hp, hpe⟩ := List.mem_map.mp hkv
      obtain ⟨n, f, a, kw, hp2, hk1, hpn, _⟩ := wf_node_spec g hwf p hp
      have hav : asValue p.2 = vcell n f a kw := by
        rw [hp2]
        simp [asValue]
      constructor
      · rw [← hpe]
        simp [hav, toIdCell, isCellV]
      · rw [← hpe]
        simp only [hk1]
        exact xkey_plain n hpn)
    (by
      intro kv _
      simp [emptyGraph, nodeKeys])
    (by
      have hfst : (g.nodes.map (fun p => (p.1, toIdCell (asValue p.2)))).map Prod.fst =
          nodeKeys g := by
        rw [List.map_map]
        unfold nodeKeys
        apply List.map_congr_left
        intro p hp
        rfl
      rw [hfst]
      exact wf_nodup g hwf)]
  unfold idGraph emptyGraph
  simp [List.map_map, Function.comp]

theorem fromJson_eq (j : List (String × Val)) :
    fromJson j = parentsThenFromId (fromJsonNodes j) := by
  unfold fromJson parentsThenFromId
  rcases addParentsNone (fromJsonNodes j) with ⟨g1, _ | e⟩ <;> rfl

/-- C1 (amended): on every well-formed XCL graph of cells — distinct plain
string node keys (in particular no numeric-string keys, which `from_json`
would re-key as ints), `{value: cell}` payloads stored at their own nodes, no
literal `@` reference strings in payload positions, every embedded dependency
cell also stored identically at its own node, and edges a subset of the
dependency edges — `XCL.from_json(g.to_json())` succeeds and yields a graph
with the same node keys in which every node's cell evaluates exactly as the
original: `from_json(g.to_json())[k]() == g[k]()` for every key `k`. -/
theorem c1_json_roundtrip_eval (g : Graph) (hwf : wf g = true) :
    ∃ h2, jsonRoundTrip g = .ok h2 ∧ nodeKeys h2 = nodeKeys g ∧
      ∀ k c, xclGetItem g k = some c →
        ∃ c', xclGetItem h2 k = some c' ∧ evalCell c' = evalCell c := by
  obtain ⟨h2, hrun, hk2, hprop⟩ := parentsFromId_wf g hwf ⟨(idGraph g).nodes, []⟩ rfl
    (by
      intro uv huv
      simp at huv)
  refine ⟨h2, ?_, hk2, eval_preserved_getItem g h2 hprop⟩
  unfold jsonRoundTrip
  rw [toJson_wf g hwf, except_bind_ok, fromJson_eq, fromJsonNodes_wf g hwf]
  exact hrun

/-- C1 counterexample: the claim quantifies over every acyclic XCL graph
built from cells with nested cell dependencies, but on `XCL() + Cell('c1',
operator.add, Cell('7', 1), Cell('b1', 2))` the serialized node key `'7'` is
a numeric string, so `from_json` re-keys it as the int `7`: the reloaded
graph has no node at the original key `'7'` (`g2['7']` raises `KeyError`
where `g['7']` returns the cell), even though the evaluation of the top cell
still succeeds. -/
theorem c1_counterexample :
    xclGetItem exG1 (vstr "7") = some (vcell (vstr "7") (vint 1) [] []) ∧
    (jsonRoundTrip exG1).map (fun h2 => xclGetItem h2 (vstr "7")) = .ok none ∧
    (jsonRoundTrip exG1).map (fun h2 => (xclGetItem h2 (vstr "c1")).map evalCell) =
      .ok (some (some (vint 3))) := by
  refine ⟨by decide, by decide, by decide⟩

/-- C1 witness: the amended json round-trip theorem applied to the concrete
well-formed graph `XCL() + Cell('w', operator.add, Cell('u', 1), Cell('v',
2))`. -/
theorem c1_witness :
    wf exG2 = true ∧
    (∃ h2, jsonRoundTrip exG2 = .ok h2 ∧ nodeKeys h2 = nodeKeys exG2 ∧
      ∀ k c, xclGetItem exG2 k = some c →
        ∃ c', xclGetItem h2 k = some c' ∧ evalCell c' = evalCell c) :=
  ⟨by decide, c1_json_roundtrip_eval exG2 (by decide)⟩

end Mombai
